import Mathlib

/-! Caesar and Vigenere ciphers over a character range.

A shallow embedding of `src/cypher.c` and `src/utilities.c`.

Conventions of the embedding.

* A `char` is a signed 8-bit integer and an `int` a signed 32-bit integer (x86-64 System V);
  both are carried as `Int`, and a conversion that can leave the type is an explicit wrap
  (`toChar`, `toInt`).
* The operator `%` of C truncates towards zero: it is `Int.tmod`.
* A `char *` is the list of the cells from the pointer to the end of its allocation.  A C string
  is stored with its terminator, so the text `t` is passed as `t ++ [0]`.  Reading or writing
  past the end of the list, and a failing `assert`, end the run: the result is `none`.
* A function that fills a caller-owned buffer receives the old cells of the buffer and returns
  its new cells.  Input and output buffers are distinct objects, and a pointer is never null,
  so the assertions `p != NULL` of the source have no counterpart.
-/

namespace Cypher

/-! ## Machine types -/

/-- Least value of `int`. -/
def INT_MIN : Int := -2147483648

/-- Greatest value of `int`. -/
def INT_MAX : Int := 2147483647

/-- Least value of `long` (LP64). -/
def LONG_MIN : Int := -9223372036854775808

/-- Greatest value of `long` (LP64). -/
def LONG_MAX : Int := 9223372036854775807

/-- Conversion to `char`: reduction into `[-128, 127]` modulo `2^8`. -/
def toChar (x : Int) : Int := (x + 128) % 256 - 128

/-- Conversion to `int`, also the result of an `int` operation that overflows:
reduction into `[INT_MIN, INT_MAX]` modulo `2^32`. -/
def toInt (x : Int) : Int := (x + 2147483648) % 4294967296 - 2147483648

/-- The bytes of a string literal, without terminator. -/
def str (s : String) : List Int := s.toList.map (fun c => (c.toNat : Int))

/-- The C string at the start of a buffer: the cells before the first terminator. -/
def c_str (buf : List Int) : List Int := buf.takeWhile (fun c => decide (c ≠ 0))

/-- Library `strlen`: the number of cells before the first terminator; `none` when the
buffer holds no terminator. -/
def strlen : List Int → Option Nat
  | [] => none
  | c :: rest => if c = 0 then some 0 else (strlen rest).map (fun n => n + 1)

/-- Write of one cell, `buf[i] = v`. -/
def store (buf : List Int) (i : Nat) (v : Int) : Option (List Int) :=
  if i < buf.length then some (buf.set i v) else none

/-! ## `cypher.c` -/

/-- The key after `key = ((key % range_size) + range_size) % range_size;`. -/
def key_normalized (range_size key : Int) : Int :=
  Int.tmod (Int.tmod key range_size + range_size) range_size

/-- The value that one iteration of the loop of `caesar_encrypt` writes to `*cipher_text`
for the character `p` at `*plain_text` (lines 17 to 25). -/
def caesar_cell (range_low range_high key range_size p : Int) : Int :=
  if p ≥ range_low ∧ p ≤ range_high then
    toChar (range_low + Int.tmod (p - range_low + key) range_size)
  else p

/-- The loop of `caesar_encrypt`: `plain_text` and `cipher_text` advance together until
`*plain_text` is the terminator, where the terminator is written to `*cipher_text`. -/
def caesar_loop (range_low range_high key range_size : Int) :
    List Int → List Int → Option (List Int)
  | [], _ => none
  | _ :: _, [] => none
  | p :: plain_text, _ :: cipher_text =>
    if p = 0 then some (0 :: cipher_text)
    else
      (caesar_loop range_low range_high key range_size plain_text cipher_text).map
        (fun rest => caesar_cell range_low range_high key range_size p :: rest)

/-- Source function `caesar_encrypt`; the result is the buffer `cipher_text` after the call. -/
def caesar_encrypt (range_low range_high key : Int) (plain_text cipher_text : List Int) :
    Option (List Int) :=
  if ¬ (range_high > range_low) then none
  else
    let range_size := range_high - range_low + 1
    let key := key_normalized range_size key
    if ¬ (key ≥ 0 ∧ key < range_size) then none
    else caesar_loop range_low range_high key range_size plain_text cipher_text

/-- Source function `caesar_decrypt`: `caesar_encrypt` with the key `-key`, an `int`
negation. -/
def caesar_decrypt (range_low range_high key : Int) (cipher_text plain_text : List Int) :
    Option (List Int) :=
  caesar_encrypt range_low range_high (toInt (-key)) cipher_text plain_text

/-- What `printf("    THE KEY: %s.\n", key)` writes to standard output. -/
def the_key_line (key : List Int) : List Int :=
  str "    THE KEY: " ++ c_str key ++ str ".\n"

/-- The loop of `vigenere_encrypt`, with the cursor `key_index`.  At an in-range character
`caesar_encrypt` is called on the whole rest of the plain text and overwrites the rest of the
cipher buffer; the loop then moves on by one cell in both. -/
def vigenere_loop (range_low range_high : Int) (key : List Int) (key_len : Nat) :
    Nat → List Int → List Int → Option (List Int)
  | _, [], _ => none
  | _, _ :: _, [] => none
  | key_index, p :: plain_text, c :: cipher_text =>
    if p = 0 then some (0 :: cipher_text)
    else if p ≥ range_low ∧ p ≤ range_high then
      match key[key_index]? with
      | none => none
      | some k =>
        let key_char := k - range_low
        match caesar_encrypt range_low range_high key_char (p :: plain_text)
            (c :: cipher_text) with
        | some (c1 :: cipher_text1) =>
          (vigenere_loop range_low range_high key key_len ((key_index + 1) % key_len)
            plain_text cipher_text1).map (fun rest => c1 :: rest)
        | _ => none
    else
      (vigenere_loop range_low range_high key key_len key_index plain_text cipher_text).map
        (fun rest => p :: rest)

/-- Source function `vigenere_encrypt`; the result is what the call writes to standard output
and the buffer `cipher_text` after the call. -/
def vigenere_encrypt (range_low range_high : Int) (key plain_text cipher_text : List Int) :
    Option (List Int × List Int) :=
  match key with
  | [] => none
  | k0 :: _ =>
    if ¬ (k0 ≠ 0) then none
    else if ¬ (range_high > range_low) then none
    else
      match strlen key with
      | none => none
      | some key_len =>
        (vigenere_loop range_low range_high key key_len 0 plain_text cipher_text).map
          (fun out => (the_key_line key, out))

/-! ## `utilities.c` -/

/-- The `for` loop of `invert_key`, with `n` iterations left and counter `i`. -/
def invert_key_loop (range_low range_high range_size : Int) (key : List Int) :
    Nat → Nat → List Int → Option (List Int)
  | 0, _, inverted_key => some inverted_key
  | n + 1, i, inverted_key =>
    match key[i]? with
    | none => none
    | some k =>
      if k ≥ range_low ∧ k ≤ range_high then
        let key_char_pos := k - range_low
        match store inverted_key i
            (toChar (range_low + Int.tmod (range_size - key_char_pos) range_size)) with
        | none => none
        | some inverted_key1 =>
          invert_key_loop range_low range_high range_size key n (i + 1) inverted_key1
      else invert_key_loop range_low range_high range_size key n (i + 1) inverted_key

/-- Source function `invert_key`; the result is the buffer `inverted_key` after the call. -/
def invert_key (range_low range_high : Int) (key inverted_key : List Int) (key_len : Nat) :
    Option (List Int) :=
  let range_size := range_high - range_low + 1
  match invert_key_loop range_low range_high range_size key key_len 0 inverted_key with
  | none => none
  | some inverted_key1 => store inverted_key1 key_len 0

/-- Source function `vigenere_decrypt`.  The array `inverted_key` has `key_len + 1` cells of
indeterminate content: cell `i` starts as `vla i`. -/
def vigenere_decrypt (range_low range_high : Int) (key cipher_text plain_text : List Int)
    (vla : Nat → Int) : Option (List Int × List Int) :=
  match key with
  | [] => none
  | k0 :: _ =>
    if ¬ (k0 ≠ 0) then none
    else if ¬ (range_high > range_low) then none
    else
      match strlen key with
      | none => none
      | some key_len =>
        match invert_key range_low range_high key ((List.range (key_len + 1)).map vla)
            key_len with
        | none => none
        | some inverted_key =>
          vigenere_encrypt range_low range_high inverted_key cipher_text plain_text

/-! ### Library functions used by `cli` -/

/-- Library `strcmp`: the difference of the first pair of cells that differ (compared as
`unsigned char`), `0` when both strings end together. -/
def strcmp : List Int → List Int → Option Int
  | [], _ => none
  | _ :: _, [] => none
  | a :: s1, b :: s2 =>
    if a ≠ b then some (a % 256 - b % 256)
    else if a = 0 then some 0
    else strcmp s1 s2

/-- Library `isspace` in the C locale. -/
def isspace (c : Int) : Bool := decide (c = 32 ∨ (9 ≤ c ∧ c ≤ 13))

/-- Library `isdigit`. -/
def isdigit (c : Int) : Bool := decide (48 ≤ c ∧ c ≤ 57)

/-- Library `strtol(nptr, &endPtr, 10)` for a 64-bit `long`: leading white space, an optional
sign, then decimal digits.  The result is the value, clamped to `[LONG_MIN, LONG_MAX]`, and
the cells from `endPtr` on.  Without any digit the value is `0` and `endPtr` is `nptr`. -/
def strtol (nptr : List Int) : Option (Int × List Int) :=
  match strlen nptr with
  | none => none
  | some _ =>
    let s := nptr.dropWhile isspace
    let signed : Bool × List Int :=
      match s with
      | 45 :: r => (true, r)
      | 43 :: r => (false, r)
      | _ => (false, s)
    let digits := signed.2.takeWhile isdigit
    if digits = [] then some (0, nptr)
    else
      let magnitude := digits.foldl (fun acc d => acc * 10 + (d - 48)) 0
      let value := if signed.1 then -magnitude else magnitude
      some (max LONG_MIN (min LONG_MAX value), signed.2.dropWhile isdigit)

/-! ### `cli` -/

/-- What a run of `cli` leaves behind: the returned status and the bytes written to the
two streams. -/
structure Outcome where
  status : Int
  stdout : List Int
  stderr : List Int
  deriving DecidableEq, Repr

/-- What `cli` takes from its environment: whether `malloc` succeeds, the indeterminate
content of the block it returns, and that of the array `inverted_key` of
`vigenere_decrypt`. -/
structure Env where
  malloc_ok : Bool
  heap : Nat → Int
  vla : Nat → Int

/-- A run that ends in `return 1` after one `fprintf(stderr, ...)`. -/
def fail (message : List Int) : Option Outcome :=
  some { status := 1, stdout := [], stderr := message }

/-- The `for` loop of `cli` over the Vigenere key: `some true` when a character outside
`'A'..'Z'` is met before the terminator. -/
def key_has_invalid_char : List Int → Option Bool
  | [] => none
  | k :: rest =>
    if k = 0 then some false
    else if k < 65 ∨ k > 90 then some true
    else key_has_invalid_char rest

/-- Key validation of `cli` (lines 40 to 70): `some (some m)` when the error message `m`
is reported, `some none` when the key is accepted. -/
def cli_key_error (caesar : Bool) (keyText : List Int) : Option (Option (List Int)) :=
  if caesar then
    match strtol keyText with
    | none => none
    | some (key, endPtr) =>
      match endPtr with
      | [] => none
      | e :: _ =>
        if e ≠ 0 then some (some (str "Error: Invalid integer key.\n"))
        else if key < INT_MIN ∨ key > INT_MAX then
          some (some (str "Error: Integer key is out of range.\n"))
        else some none
  else
    match keyText with
    | [] => none
    | k0 :: _ =>
      if k0 = 0 then some (some (str "Error: Key is empty string.\n"))
      else
        match key_has_invalid_char keyText with
        | none => none
        | some true =>
          some (some (str "Error: Key contains invalid characters for range 'A' - 'Z'.\n"))
        | some false => some none

/-- The transformation step of `cli` (lines 87 to 109), under the range `'A'..'Z'`: what the
called function prints and the buffer `output_message` after the call. -/
def cli_transform (ce cd ve : Bool) (keyText input_message output_message : List Int)
    (env : Env) : Option (List Int × List Int) :=
  if ce ∨ cd then
    match strtol keyText with
    | none => none
    | some (value, _) =>
      let caesar_key := toInt value
      if ce then
        (caesar_encrypt 65 90 caesar_key input_message output_message).map
          (fun buf => ([], buf))
      else
        (caesar_decrypt 65 90 caesar_key input_message output_message).map
          (fun buf => ([], buf))
  else if ve then vigenere_encrypt 65 90 keyText input_message output_message
  else vigenere_decrypt 65 90 keyText input_message output_message env.vla

/-- The body of `cli` once `argc == 4`, on `argv[1]`, `argv[2]` and `argv[3]`. -/
def cli_run (operation keyText input_message : List Int) (env : Env) : Option Outcome :=
  match strcmp operation (str "caesar-encrypt" ++ [0]),
      strcmp operation (str "caesar-decrypt" ++ [0]),
      strcmp operation (str "vigenere-encrypt" ++ [0]),
      strcmp operation (str "vigenere-decrypt" ++ [0]) with
  | some r1, some r2, some r3, some r4 =>
    if r1 ≠ 0 ∧ r2 ≠ 0 ∧ r3 ≠ 0 ∧ r4 ≠ 0 then
      fail (str "Error: " ++ c_str operation ++ str (" is an invalid operation, must use one of "
        ++ "'caesar-encrypt', 'caesar-decrypt', 'vigenere-encrypt', or 'vigenere-decrypt'.\n"))
    else
      match cli_key_error (decide (r1 = 0 ∨ r2 = 0)) keyText with
      | none => none
      | some (some message) => fail message
      | some none =>
        match input_message with
        | [] => none
        | m0 :: _ =>
          if m0 = 0 then fail (str "Error: Input message is an empty string.\n")
          else
            match strlen input_message with
            | none => none
            | some input_length =>
              if env.malloc_ok = false then
                fail (str "Error: Memory allocation for output message failed.\n")
              else
                match cli_transform (decide (r1 = 0)) (decide (r2 = 0)) (decide (r3 = 0))
                    keyText input_message ((List.range (input_length + 1)).map env.heap)
                    env with
                | none => none
                | some (printed, output_message) =>
                  match strlen output_message with
                  | none => none
                  | some _ =>
                    some { status := 0
                           stdout := printed ++ c_str output_message ++ str "\n"
                           stderr := [] }
  | _, _, _, _ => none

/-- Source function `cli`, on `argc`, the strings of `argv` and the environment. -/
def cli (argc : Int) (argv : List (List Int)) (env : Env) : Option Outcome :=
  if argc ≠ 4 then
    match argv[0]? with
    | none => none
    | some program =>
      fail (str "Usage: " ++ c_str program ++ str " <operation> <key> <message>\n")
  else
    match argv[1]?, argv[2]?, argv[3]? with
    | some operation, some keyText, some input_message =>
      cli_run operation keyText input_message env
    | _, _, _ => none

/-! ## The transforms as the specification words them -/

/-- The Shift Transform of the specification (section 4.1): with `size = high - low + 1` and
`key_normalized` the key reduced by flooring modulo `size`, a character `c` with
`low ≤ c ≤ high` becomes `low + ((c - low + key_normalized) mod size)`, any other character
is unchanged. -/
def shift_transform (low high key : Int) (text : List Int) : List Int :=
  let size := high - low + 1
  let key_normalized := Int.fmod key size
  text.map (fun c =>
    if low ≤ c ∧ c ≤ high then low + Int.fmod (c - low + key_normalized) size else c)

/-- One character of the Shift Transform under a shift `k` that is already normalised. -/
def shift_char (low high k c : Int) : Int :=
  if low ≤ c ∧ c ≤ high then low + (c - low + k) % (high - low + 1) else c

/-- The number of in-range characters of `text` strictly before position `i`. -/
def in_range_before (low high : Int) (text : List Int) (i : Nat) : Nat :=
  (text.take i).countP (fun c => decide (low ≤ c ∧ c ≤ high))

/-- The Polyalphabetic Transform of the specification (section 4.2) at position `i`:
`text[i]` when it is out of range, and otherwise
`low + ((text[i] - low + (key[n mod key_len] - low)) mod size)` with `n` the number of
in-range characters strictly before `i`. -/
def poly_cell (low high : Int) (key text : List Int) (i : Nat) : Int :=
  let size := high - low + 1
  let c := text.getD i 0
  let n := in_range_before low high text i
  if low ≤ c ∧ c ≤ high then
    low + Int.fmod (c - low + (key.getD (n % key.length) 0 - low)) size
  else c

/-- The cell `poly_cell` when `n0` in-range characters precede the text. -/
def poly_cell_from (low high : Int) (key text : List Int) (n0 i : Nat) : Int :=
  let size := high - low + 1
  let c := text.getD i 0
  let n := n0 + in_range_before low high text i
  if low ≤ c ∧ c ≤ high then
    low + Int.fmod (c - low + (key.getD (n % key.length) 0 - low)) size
  else c

/-- The Polyalphabetic Transform of the specification as a scan with the key cursor: an
in-range character is shifted by `key[cursor] - low` and the cursor moves to
`(cursor + 1) mod key_length`; any other character is copied and the cursor stays. -/
def poly_scan (low high : Int) (key : List Int) : Nat → List Int → List Int
  | _, [] => []
  | cursor, c :: text =>
    if low ≤ c ∧ c ≤ high then
      shift_char low high (key.getD cursor 0 - low) c
        :: poly_scan low high key ((cursor + 1) % key.length) text
    else c :: poly_scan low high key cursor text

/-- The Polyalphabetic Transform of the specification on a whole text. -/
def poly_transform (low high : Int) (key text : List Int) : List Int :=
  (List.range text.length).map (poly_cell low high key text)

/-- The inverted key of the specification: each character `k` becomes
`low + ((size - (k - low)) mod size)`. -/
def inverted (low high : Int) (key : List Int) : List Int :=
  let size := high - low + 1
  key.map (fun k => low + Int.fmod (size - (k - low)) size)

/-! ## Ghost state of the source loops -/

/-- The iterations of the loop of `vigenere_encrypt` (lines 52 to 67): for each one, in
order, the value of `key_index` at its start and the character `*plain_text` it handles.
The cursor moves as in the source: to `(key_index + 1) % key_len` after an in-range
character, not at all after any other. -/
def vigenere_cursors (range_low range_high : Int) (key_len : Nat) :
    Nat → List Int → List (Nat × Int)
  | _, [] => []
  | key_index, p :: plain_text =>
    if p = 0 then []
    else if p ≥ range_low ∧ p ≤ range_high then
      (key_index, p) :: vigenere_cursors range_low range_high key_len
        ((key_index + 1) % key_len) plain_text
    else (key_index, p) :: vigenere_cursors range_low range_high key_len key_index plain_text

/-- What the iteration with cursor `key_index` on the character `p` leaves in its cell of
the cipher buffer: the Caesar shift of `p` by `key[key_index] - range_low` for an in-range
`p`, and `p` otherwise. -/
def vigenere_cell (range_low range_high : Int) (key : List Int) (e : Nat × Int) : Int :=
  if e.2 ≥ range_low ∧ e.2 ≤ range_high then
    caesar_cell range_low range_high
      (key_normalized (range_high - range_low + 1) (key.getD e.1 0 - range_low))
      (range_high - range_low + 1) e.2
  else e.2

/-! ## The command line -/

/-- The characters of a C string: `char` values other than the terminator. -/
def is_text (t : List Int) : Prop := ∀ c ∈ t, c ≠ 0 ∧ -128 ≤ c ∧ c ≤ 127

/-- The messages that the `fprintf(stderr, ...)` calls of `cli` can write, in source order,
for the command line `argv`. -/
def cli_error_messages (argv : List (List Int)) : List (List Int) :=
  [ str "Usage: " ++ c_str (argv.getD 0 []) ++ str " <operation> <key> <message>\n",
    str "Error: " ++ c_str (argv.getD 1 []) ++ str (" is an invalid operation, must use one of "
      ++ "'caesar-encrypt', 'caesar-decrypt', 'vigenere-encrypt', or 'vigenere-decrypt'.\n"),
    str "Error: Invalid integer key.\n",
    str "Error: Integer key is out of range.\n",
    str "Error: Key is empty string.\n",
    str "Error: Key contains invalid characters for range 'A' - 'Z'.\n",
    str "Error: Input message is an empty string.\n",
    str "Error: Memory allocation for output message failed.\n" ]

/-- The four operation names that `cli` recognises. -/
def operations : List (List Int) :=
  [str "caesar-encrypt", str "caesar-decrypt", str "vigenere-encrypt", str "vigenere-decrypt"]

end Cypher

namespace Cypher

/-! ## Arithmetic of the machine types -/

theorem toChar_of_mem (x : Int) (h1 : -128 ≤ x) (h2 : x ≤ 127) : toChar x = x := by
  unfold toChar; omega

theorem toInt_of_mem (x : Int) (h1 : INT_MIN ≤ x) (h2 : x ≤ INT_MAX) : toInt x = x := by
  unfold toInt; unfold INT_MIN at h1; unfold INT_MAX at h2; omega

theorem tmod_emod (a b : Int) : (Int.tmod a b) % b = a % b := by
  have h := Int.tmod_add_tdiv a b
  conv_rhs => rw [← h]
  rw [Int.add_mul_emod_self_left]

theorem neg_lt_tmod (a b : Int) (h : 0 < b) : -b < Int.tmod a b := by
  rcases le_or_lt 0 a with hk | hk
  · have := Int.tmod_nonneg b hk; omega
  · have h2 : Int.tmod (-a) b = -(Int.tmod a b) := by
      rw [Int.tmod_def, Int.tmod_def, Int.neg_tdiv]; ring
    have := Int.tmod_lt_of_pos (-a) h
    omega

theorem key_normalized_eq (size key : Int) (h : 0 < size) :
    key_normalized size key = key % size := by
  have h1 := neg_lt_tmod key size h
  unfold key_normalized
  rw [Int.tmod_eq_emod (by omega) (by omega), Int.add_emod_self, tmod_emod]

theorem key_normalized_bounds (size key : Int) (h : 0 < size) :
    0 ≤ key_normalized size key ∧ key_normalized size key < size := by
  rw [key_normalized_eq size key h]
  exact ⟨Int.emod_nonneg _ (by omega), Int.emod_lt_of_pos _ h⟩

/-! ## The Caesar loop -/

theorem caesar_loop_eq (low high k size : Int) :
    ∀ (text buf : List Int), 0 ∉ text → buf.length = text.length + 1 →
      caesar_loop low high k size (text ++ [0]) buf
        = some (text.map (caesar_cell low high k size) ++ [0]) := by
  intro text
  induction text with
  | nil =>
    intro buf _ hlen
    match buf, hlen with
    | [b], _ => simp [caesar_loop]
  | cons c t ih =>
    intro buf h0 hlen
    match buf, hlen with
    | b :: buf1, hlen =>
      have hc : c ≠ 0 := fun h => h0 (by simp [h])
      have ht : 0 ∉ t := fun h => h0 (by simp [h])
      have hl : buf1.length = t.length + 1 := by simpa using hlen
      simp [caesar_loop, hc, ih buf1 ht hl]

theorem caesar_encrypt_eq (low high key : Int) (text buf : List Int) (hr : low < high)
    (h0 : 0 ∉ text) (hlen : buf.length = text.length + 1) :
    caesar_encrypt low high key (text ++ [0]) buf
      = some (text.map (caesar_cell low high (key % (high - low + 1)) (high - low + 1))
          ++ [0]) := by
  have hs : 0 < high - low + 1 := by omega
  have hb := key_normalized_bounds (high - low + 1) key hs
  unfold caesar_encrypt
  simp only [gt_iff_lt, hr, not_true_eq_false, if_false, ge_iff_le, hb.1, hb.2, and_self]
  rw [key_normalized_eq _ _ hs]
  exact caesar_loop_eq low high _ _ text buf h0 hlen

theorem caesar_cell_eq (low high k p : Int) (hlow : -128 ≤ low) (hhigh : high ≤ 127)
    (hk0 : 0 ≤ k) :
    caesar_cell low high k (high - low + 1) p
      = if low ≤ p ∧ p ≤ high then low + (p - low + k) % (high - low + 1) else p := by
  unfold caesar_cell
  by_cases hp : low ≤ p ∧ p ≤ high
  · have hs : 0 < high - low + 1 := by omega
    have e : Int.tmod (p - low + k) (high - low + 1) = (p - low + k) % (high - low + 1) :=
      Int.tmod_eq_emod (by omega) (by omega)
    have b1 := Int.emod_nonneg (p - low + k) (show high - low + 1 ≠ 0 by omega)
    have b2 := Int.emod_lt_of_pos (p - low + k) hs
    simp only [ge_iff_le, hp, and_self, if_true, e]
    exact toChar_of_mem _ (by omega) (by omega)
  · have hp2 : ¬ (p ≥ low ∧ p ≤ high) := hp
    simp only [hp, hp2, if_false]

end Cypher
namespace Cypher

/-! ## The Shift Transform -/

theorem caesar_cell_eq_shift_char (low high k : Int) (hlow : -128 ≤ low) (hhigh : high ≤ 127)
    (hk0 : 0 ≤ k) :
    caesar_cell low high k (high - low + 1) = shift_char low high k := by
  funext p
  rw [caesar_cell_eq low high k p hlow hhigh hk0]
  rfl

theorem shift_transform_eq (low high key : Int) (text : List Int) (hr : low < high) :
    shift_transform low high key text
      = text.map (shift_char low high (key % (high - low + 1))) := by
  have hs : (0 : Int) ≤ high - low + 1 := by omega
  unfold shift_transform
  apply List.map_congr_left
  intro c _
  simp only [shift_char, Int.fmod_eq_emod _ hs]

theorem caesar_encrypt_shift (low high key : Int) (text buf : List Int) (hlow : -128 ≤ low)
    (hhigh : high ≤ 127) (hr : low < high) (h0 : 0 ∉ text)
    (hlen : buf.length = text.length + 1) :
    caesar_encrypt low high key (text ++ [0]) buf
      = some (text.map (shift_char low high (key % (high - low + 1))) ++ [0]) := by
  rw [caesar_encrypt_eq low high key text buf hr h0 hlen,
    caesar_cell_eq_shift_char low high _ hlow hhigh (Int.emod_nonneg _ (by omega))]

theorem shift_char_mem (low high k c : Int) (hr : low < high) (hc : low ≤ c ∧ c ≤ high) :
    low ≤ shift_char low high k c ∧ shift_char low high k c ≤ high := by
  have b1 := Int.emod_nonneg (c - low + k) (show high - low + 1 ≠ 0 by omega)
  have b2 := Int.emod_lt_of_pos (c - low + k) (show 0 < high - low + 1 by omega)
  simp only [shift_char, hc, and_self, if_true]
  omega

theorem shift_char_of_mem (low high k c : Int) (hc : low ≤ c ∧ c ≤ high) :
    shift_char low high k c = low + (c - low + k) % (high - low + 1) := by
  simp only [shift_char, hc, and_self, if_true]

theorem shift_char_not_mem (low high k c : Int) (hc : ¬ (low ≤ c ∧ c ≤ high)) :
    shift_char low high k c = c := by
  simp only [shift_char, hc, if_false]

theorem shift_char_mem_iff (low high k c : Int) (hr : low < high) :
    (low ≤ shift_char low high k c ∧ shift_char low high k c ≤ high)
      ↔ (low ≤ c ∧ c ≤ high) := by
  by_cases hc : low ≤ c ∧ c ≤ high
  · exact ⟨fun _ => hc, fun _ => shift_char_mem low high k c hr hc⟩
  · rw [shift_char_not_mem low high k c hc]

theorem shift_char_ne_zero (low high k c : Int) (hr : low < high)
    (hnul : ¬ (low ≤ 0 ∧ 0 ≤ high)) (hc : c ≠ 0) : shift_char low high k c ≠ 0 := by
  by_cases hm : low ≤ c ∧ c ≤ high
  · have := shift_char_mem low high k c hr hm
    intro h
    rw [h] at this
    exact hnul this
  · rw [shift_char_not_mem low high k c hm]; exact hc

theorem shift_char_add (low high k1 k2 c : Int) (hr : low < high) :
    shift_char low high k2 (shift_char low high k1 c) = shift_char low high (k1 + k2) c := by
  by_cases hc : low ≤ c ∧ c ≤ high
  · have hm := shift_char_mem low high k1 c hr hc
    have e := shift_char_of_mem low high k1 c hc
    have e2 := shift_char_of_mem low high k2 _ hm
    have e3 := shift_char_of_mem low high (k1 + k2) c hc
    have : low + (c - low + k1) % (high - low + 1) - low + k2
        = (c - low + k1) % (high - low + 1) + k2 := by ring
    rw [e2, e3, e, this, Int.emod_add_emod]
    congr 2
    ring
  · rw [shift_char_not_mem low high k1 c hc, shift_char_not_mem low high k2 c hc,
      shift_char_not_mem low high (k1 + k2) c hc]

theorem shift_char_congr (low high k1 k2 c : Int)
    (h : k1 % (high - low + 1) = k2 % (high - low + 1)) :
    shift_char low high k1 c = shift_char low high k2 c := by
  unfold shift_char
  split
  · rw [Int.add_emod, h, ← Int.add_emod]
  · rfl

theorem shift_char_zero (low high c : Int) :
    shift_char low high 0 c = c := by
  unfold shift_char
  split
  · rename_i hc
    rw [Int.add_zero, Int.emod_eq_of_lt (by omega) (by omega)]
    omega
  · rfl

theorem shift_char_cancel (low high k1 k2 c : Int) (hr : low < high)
    (h : (k1 + k2) % (high - low + 1) = 0) :
    shift_char low high k2 (shift_char low high k1 c) = c := by
  rw [shift_char_add low high k1 k2 c hr,
    shift_char_congr low high (k1 + k2) 0 c (by rw [h]; simp), shift_char_zero low high c]

end Cypher
namespace Cypher

/-! ## Strings in buffers -/

theorem strlen_terminated (t : List Int) (rest : List Int) (h0 : 0 ∉ t) :
    strlen (t ++ 0 :: rest) = some t.length := by
  induction t with
  | nil => simp [strlen]
  | cons c t ih =>
    have hc : c ≠ 0 := fun h => h0 (by simp [h])
    have ht : 0 ∉ t := fun h => h0 (by simp [h])
    simp [strlen, hc, ih ht]

theorem c_str_terminated (t : List Int) (rest : List Int) (h0 : 0 ∉ t) :
    c_str (t ++ 0 :: rest) = t := by
  induction t with
  | nil => simp [c_str]
  | cons c t ih =>
    have hc : c ≠ 0 := fun h => h0 (by simp [h])
    have ht : 0 ∉ t := fun h => h0 (by simp [h])
    simpa [c_str, List.takeWhile_cons, hc] using ih ht

/-! ## The Vigenere loop -/

theorem caesar_encrypt_cons (low high key c : Int) (t b : List Int) (hlow : -128 ≤ low)
    (hhigh : high ≤ 127) (hr : low < high) (hc : c ≠ 0) (h0 : 0 ∉ t)
    (hlen : b.length = t.length + 2) :
    caesar_encrypt low high key (c :: (t ++ [0])) b
      = some (shift_char low high key c
          :: (t.map (shift_char low high (key % (high - low + 1))) ++ [0])) := by
  have h0' : 0 ∉ c :: t := by
    intro h
    rcases List.mem_cons.1 h with h | h
    · exact hc h.symm
    · exact h0 h
  have := caesar_encrypt_shift low high key (c :: t) b hlow hhigh hr h0' (by simpa using hlen)
  rw [List.cons_append] at this
  rw [this, List.map_cons, List.cons_append,
    shift_char_congr low high (key % (high - low + 1)) key c (Int.emod_emod _ _)]

theorem vigenere_loop_eq (low high : Int) (key : List Int) (hlow : -128 ≤ low)
    (hhigh : high ≤ 127) (hr : low < high) :
    ∀ (text buf : List Int) (cursor : Nat), cursor < key.length → 0 ∉ text →
      buf.length = text.length + 1 →
      vigenere_loop low high (key ++ [0]) key.length cursor (text ++ [0]) buf
        = some (poly_scan low high key cursor text ++ [0]) := by
  intro text
  induction text with
  | nil =>
    intro buf cursor _ _ hlen
    match buf, hlen with
    | [b], _ => simp [vigenere_loop, poly_scan]
  | cons c t ih =>
    intro buf cursor hcur h0 hlen
    match buf, hlen with
    | b :: buf1, hlen =>
      have hc : c ≠ 0 := fun h => h0 (by simp [h])
      have ht : 0 ∉ t := fun h => h0 (by simp [h])
      have hl : buf1.length = t.length + 1 := by simpa using hlen
      have hpos : 0 < key.length := by omega
      by_cases hm : low ≤ c ∧ c ≤ high
      · have hm2 : c ≥ low ∧ c ≤ high := hm
        have hk : (key ++ [0])[cursor]? = some (key.getD cursor 0) := by
          rw [List.getElem?_append_left hcur, List.getD_eq_getElem?_getD,
            List.getElem?_eq_getElem hcur]
          rfl
        have hce := caesar_encrypt_cons low high (key.getD cursor 0 - low) c t (b :: buf1)
          hlow hhigh hr hc ht (by simp [hl])
        have hnext := ih (t.map (shift_char low high
          ((key.getD cursor 0 - low) % (high - low + 1))) ++ [0])
          ((cursor + 1) % key.length) (Nat.mod_lt _ hpos) ht (by simp)
        rw [List.cons_append, vigenere_loop]
        simp only [hc, if_false, hm2, and_self, if_true, hk, hce, hnext,
          Option.map_some', poly_scan, hm, List.cons_append]
      · have hm2 : ¬ (c ≥ low ∧ c ≤ high) := hm
        have hnext := ih buf1 cursor hcur ht hl
        rw [List.cons_append, vigenere_loop]
        simp only [hc, if_false, hm2, hnext, Option.map_some', poly_scan, hm,
          List.cons_append]

theorem vigenere_encrypt_eq (low high : Int) (key text buf : List Int) (hlow : -128 ≤ low)
    (hhigh : high ≤ 127) (hr : low < high) (hne : key ≠ []) (hk0 : 0 ∉ key) (h0 : 0 ∉ text)
    (hlen : buf.length = text.length + 1) :
    vigenere_encrypt low high (key ++ [0]) (text ++ [0]) buf
      = some (str "    THE KEY: " ++ key ++ str ".\n", poly_scan low high key 0 text ++ [0]) := by
  match key, hne, hk0 with
  | k :: ks, _, hk0 =>
    have hk : k ≠ 0 := fun h => hk0 (by simp [h])
    have hs := strlen_terminated (k :: ks) [] hk0
    have hcs := c_str_terminated (k :: ks) [] hk0
    have hl := vigenere_loop_eq low high (k :: ks) hlow hhigh hr text buf 0 (by simp) h0 hlen
    simp only [List.cons_append] at hs hcs hl
    simp only [vigenere_encrypt, List.cons_append, hk, ne_eq, not_false_eq_true, not_true_eq_false,
      if_false, gt_iff_lt, hr, hs, the_key_line, hcs]
    simp only [List.length_cons] at hl
    simp [hl]

end Cypher
namespace Cypher

/-! ## The cursor scan and the position-wise Polyalphabetic Transform -/

theorem poly_cell_from_zero (low high : Int) (key text : List Int) (n0 : Nat)
    (c : Int) (t : List Int) (hr : low < high) (htext : text = c :: t) :
    poly_cell_from low high key text n0 0
      = if low ≤ c ∧ c ≤ high then shift_char low high (key.getD (n0 % key.length) 0 - low) c
        else c := by
  subst htext
  have hs : (0 : Int) ≤ high - low + 1 := by omega
  simp only [poly_cell_from, in_range_before, List.getD_cons_zero, List.take_zero,
    List.countP_nil, Nat.add_zero, Int.fmod_eq_emod _ hs, shift_char]
  split <;> simp_all

theorem poly_cell_from_succ (low high : Int) (key : List Int) (n0 i : Nat)
    (c : Int) (t : List Int) :
    poly_cell_from low high key (c :: t) n0 (i + 1)
      = poly_cell_from low high key t (if low ≤ c ∧ c ≤ high then n0 + 1 else n0) i := by
  simp only [poly_cell_from, in_range_before, List.getD_cons_succ, List.take_succ_cons,
    List.countP_cons]
  by_cases hc : low ≤ c ∧ c ≤ high
  · simp only [hc, and_self, decide_True, if_true]
    have : n0 + (List.countP (fun c => decide (low ≤ c ∧ c ≤ high)) (List.take i t) + 1)
        = n0 + 1 + List.countP (fun c => decide (low ≤ c ∧ c ≤ high)) (List.take i t) := by
      omega
    rw [this]
  · simp only [hc, decide_False, if_false, Nat.add_zero]
    simp

theorem poly_scan_eq_cells (low high : Int) (key : List Int) (hr : low < high) :
    ∀ (text : List Int) (n0 : Nat),
      poly_scan low high key (n0 % key.length) text
        = (List.range text.length).map (poly_cell_from low high key text n0) := by
  intro text
  induction text with
  | nil => intro n0; simp [poly_scan]
  | cons c t ih =>
    intro n0
    rw [List.length_cons, List.range_succ_eq_map, List.map_cons, List.map_map,
      poly_cell_from_zero low high key (c :: t) n0 c t hr rfl]
    have hfun : (poly_cell_from low high key (c :: t) n0 ∘ Nat.succ)
        = poly_cell_from low high key t (if low ≤ c ∧ c ≤ high then n0 + 1 else n0) := by
      funext i
      exact poly_cell_from_succ low high key n0 i c t
    rw [hfun]
    by_cases hc : low ≤ c ∧ c ≤ high
    · simp only [poly_scan, hc, and_self, if_true, Nat.mod_add_mod, ih (n0 + 1)]
    · simp only [poly_scan, hc, if_false, ih n0]

theorem poly_scan_eq_transform (low high : Int) (key text : List Int) (hr : low < high) :
    poly_scan low high key 0 text = poly_transform low high key text := by
  have h := poly_scan_eq_cells low high key hr text 0
  rw [Nat.zero_mod] at h
  rw [h]
  unfold poly_transform
  apply List.map_congr_left
  intro i _
  simp only [poly_cell_from, poly_cell, Nat.zero_add]

theorem poly_scan_length (low high : Int) (key : List Int) :
    ∀ (text : List Int) (cursor : Nat), (poly_scan low high key cursor text).length
      = text.length := by
  intro text
  induction text with
  | nil => intro cursor; simp [poly_scan]
  | cons c t ih =>
    intro cursor
    by_cases hc : low ≤ c ∧ c ≤ high
    · simp [poly_scan, hc, ih]
    · simp [poly_scan, hc, ih]

/-- The cursor after the scan of a text. -/
theorem poly_scan_append (low high : Int) (key : List Int) :
    ∀ (t1 : List Int) (cursor : Nat), ∃ cursor1 : Nat, ∀ t2 : List Int,
      poly_scan low high key cursor (t1 ++ t2)
        = poly_scan low high key cursor t1 ++ poly_scan low high key cursor1 t2 := by
  intro t1
  induction t1 with
  | nil => intro cursor; exact ⟨cursor, fun t2 => by simp [poly_scan]⟩
  | cons c t ih =>
    intro cursor
    by_cases hc : low ≤ c ∧ c ≤ high
    · obtain ⟨cursor1, h⟩ := ih ((cursor + 1) % key.length)
      exact ⟨cursor1, fun t2 => by simp [poly_scan, hc, h t2]⟩
    · obtain ⟨cursor1, h⟩ := ih cursor
      exact ⟨cursor1, fun t2 => by simp [poly_scan, hc, h t2]⟩

theorem poly_scan_getElem_not_mem (low high : Int) (key : List Int) :
    ∀ (text : List Int) (cursor i : Nat) (c : Int), text[i]? = some c →
      ¬ (low ≤ c ∧ c ≤ high) → (poly_scan low high key cursor text)[i]? = some c := by
  intro text
  induction text with
  | nil => intro cursor i c h; simp at h
  | cons d t ih =>
    intro cursor i c h hc
    cases i with
    | zero =>
      simp only [List.getElem?_cons_zero, Option.some.injEq] at h
      subst h
      simp [poly_scan, hc]
    | succ j =>
      simp only [List.getElem?_cons_succ] at h
      by_cases hd : low ≤ d ∧ d ≤ high
      · simp [poly_scan, hd, ih _ j c h hc]
      · simp [poly_scan, hd, ih _ j c h hc]

theorem poly_scan_not_mem_zero (low high : Int) (key : List Int) (hr : low < high)
    (hnul : ¬ (low ≤ 0 ∧ 0 ≤ high)) :
    ∀ (text : List Int) (cursor : Nat), 0 ∉ text → 0 ∉ poly_scan low high key cursor text := by
  intro text
  induction text with
  | nil => intro cursor _; simp [poly_scan]
  | cons c t ih =>
    intro cursor h0
    have hc : c ≠ 0 := fun h => h0 (by simp [h])
    have ht : 0 ∉ t := fun h => h0 (by simp [h])
    by_cases hm : low ≤ c ∧ c ≤ high
    · have hz := shift_char_ne_zero low high (key.getD cursor 0 - low) c hr hnul hc
      simp only [poly_scan, hm, and_self, if_true, List.mem_cons, not_or]
      exact ⟨fun h => hz h.symm, ih _ ht⟩
    · simp only [poly_scan, hm, if_false, List.mem_cons, not_or]
      exact ⟨fun h => hc h.symm, ih _ ht⟩

/-- Scanning with a key whose shifts cancel those of `key`, cursor by cursor, undoes the
scan with `key`. -/
theorem poly_scan_cancel (low high : Int) (key inv : List Int) (hr : low < high)
    (hlen : inv.length = key.length)
    (hcancel : ∀ i : Nat, i < key.length →
      ((key.getD i 0 - low) + (inv.getD i 0 - low)) % (high - low + 1) = 0) :
    ∀ (text : List Int) (cursor : Nat), cursor < key.length →
      poly_scan low high inv cursor (poly_scan low high key cursor text) = text := by
  intro text
  induction text with
  | nil => intro cursor _; simp [poly_scan]
  | cons c t ih =>
    intro cursor hcur
    by_cases hm : low ≤ c ∧ c ≤ high
    · have hm1 := shift_char_mem low high (key.getD cursor 0 - low) c hr hm
      have hcc := shift_char_cancel low high (key.getD cursor 0 - low)
        (inv.getD cursor 0 - low) c hr (hcancel cursor hcur)
      have hnext := ih ((cursor + 1) % key.length) (Nat.mod_lt _ (by omega))
      simp only [poly_scan, hm, and_self, if_true, hm1, hcc, hlen, hnext]
    · simp only [poly_scan, hm, if_false, ih cursor hcur]

end Cypher
namespace Cypher

/-! ## Key inversion -/

/-- One character of the inverted key. -/
theorem invert_cell_eq (low high k : Int) (hlow : -128 ≤ low) (hhigh : high ≤ 127)
    (hk : low ≤ k ∧ k ≤ high) :
    toChar (low + Int.tmod (high - low + 1 - (k - low)) (high - low + 1))
      = low + (high - low + 1 - (k - low)) % (high - low + 1) := by
  have hs : 0 < high - low + 1 := by omega
  rw [Int.tmod_eq_emod (by omega) (by omega)]
  have b1 := Int.emod_nonneg (high - low + 1 - (k - low)) (show high - low + 1 ≠ 0 by omega)
  have b2 := Int.emod_lt_of_pos (high - low + 1 - (k - low)) hs
  exact toChar_of_mem _ (by omega) (by omega)

theorem invert_key_loop_eq (low high : Int) (key : List Int) (hlow : -128 ≤ low)
    (hhigh : high ≤ 127) (hkey : ∀ k ∈ key, low ≤ k ∧ k ≤ high) :
    ∀ (n i : Nat) (inv : List Int), i + n ≤ key.length → inv.length = key.length + 1 →
      ∃ inv1 : List Int,
        invert_key_loop low high (high - low + 1) (key ++ [0]) n i inv = some inv1
        ∧ inv1.length = inv.length
        ∧ ∀ j : Nat, inv1[j]? =
            if i ≤ j ∧ j < i + n then
              some (low + (high - low + 1 - (key.getD j 0 - low)) % (high - low + 1))
            else inv[j]? := by
  intro n
  induction n with
  | zero =>
    intro i inv _ _
    refine ⟨inv, rfl, rfl, fun j => ?_⟩
    have : ¬ (i ≤ j ∧ j < i + 0) := by omega
    simp only [this, if_false]
  | succ n ih =>
    intro i inv hi hlen
    have hik : i < key.length := by omega
    have hget : (key ++ [0])[i]? = some (key.getD i 0) := by
      rw [List.getElem?_append_left hik, List.getD_eq_getElem?_getD,
        List.getElem?_eq_getElem hik]
      rfl
    have hmem : key.getD i 0 ∈ key := by
      rw [List.getD_eq_getElem?_getD, List.getElem?_eq_getElem hik]
      exact List.getElem_mem hik
    have hk := hkey _ hmem
    have hk2 : key.getD i 0 ≥ low ∧ key.getD i 0 ≤ high := hk
    have hst : i < inv.length := by omega
    obtain ⟨inv1, h1, h2, h3⟩ := ih (i + 1)
      (inv.set i (low + (high - low + 1 - (key.getD i 0 - low)) % (high - low + 1)))
      (by omega) (by rw [List.length_set]; exact hlen)
    refine ⟨inv1, ?_, ?_, fun j => ?_⟩
    · simp only [invert_key_loop, hget, hk2, and_self, if_true, store, hst,
        invert_cell_eq low high _ hlow hhigh hk, h1]
    · rw [h2, List.length_set]
    · rw [h3 j, List.getElem?_set]
      by_cases hj : i = j
      · subst hj
        have c1 : ¬ (i + 1 ≤ i ∧ i < i + 1 + n) := by omega
        have c2 : i ≤ i ∧ i < i + (n + 1) := by omega
        simp only [c1, if_false, if_true, hst, c2, and_self]
      · by_cases hj2 : i + 1 ≤ j ∧ j < i + 1 + n
        · have c2 : i ≤ j ∧ j < i + (n + 1) := by omega
          simp only [hj2, and_self, if_true, c2]
        · have c2 : ¬ (i ≤ j ∧ j < i + (n + 1)) := by omega
          simp only [hj2, if_false, hj, c2]

theorem inverted_eq (low high : Int) (key : List Int) (hr : low < high) :
    inverted low high key
      = key.map (fun k => low + (high - low + 1 - (k - low)) % (high - low + 1)) := by
  have hs : (0 : Int) ≤ high - low + 1 := by omega
  unfold inverted
  apply List.map_congr_left
  intro k _
  simp only [Int.fmod_eq_emod _ hs]

theorem invert_key_eq (low high : Int) (key inv : List Int) (hlow : -128 ≤ low)
    (hhigh : high ≤ 127) (hr : low < high) (hkey : ∀ k ∈ key, low ≤ k ∧ k ≤ high)
    (hlen : inv.length = key.length + 1) :
    invert_key low high (key ++ [0]) inv key.length = some (inverted low high key ++ [0]) := by
  obtain ⟨inv1, h1, h2, h3⟩ := invert_key_loop_eq low high key hlow hhigh hkey key.length 0
    inv (by omega) hlen
  have hst : key.length < inv1.length := by omega
  simp only [invert_key, h1, store, hst, if_true, Option.some.injEq]
  rw [inverted_eq low high key hr]
  apply List.ext_getElem?
  intro j
  rw [List.getElem?_set, h3 j]
  rcases Nat.lt_trichotomy j key.length with hj | hj | hj
  · have c1 : ¬ key.length = j := by omega
    have c2 : 0 ≤ j ∧ j < 0 + key.length := by omega
    rw [List.getElem?_append_left (by simpa using hj), List.getElem?_map,
      List.getD_eq_getElem?_getD, List.getElem?_eq_getElem hj]
    simp only [c1, if_false, c2, and_self, if_true, Option.getD_some, Option.map_some']
  · subst hj
    have c3 : key.length ≤ key.length := le_refl _
    rw [List.getElem?_append_right (by simp)]
    simp [hst]
  · have c1 : ¬ key.length = j := by omega
    have c2 : ¬ (0 ≤ j ∧ j < 0 + key.length) := by omega
    rw [List.getElem?_eq_none (l := _ ++ _) (by simp; omega),
      List.getElem?_eq_none (l := inv) (by omega)]
    simp only [c1, if_false, c2]

theorem inverted_length (low high : Int) (key : List Int) :
    (inverted low high key).length = key.length := by
  simp [inverted]

theorem inverted_mem (low high : Int) (key : List Int) (hr : low < high) :
    ∀ k1 ∈ inverted low high key, low ≤ k1 ∧ k1 ≤ high := by
  intro k1 h
  rw [inverted_eq low high key hr] at h
  obtain ⟨k, _, e⟩ := List.mem_map.1 h
  have b1 := Int.emod_nonneg (high - low + 1 - (k - low)) (show high - low + 1 ≠ 0 by omega)
  have b2 := Int.emod_lt_of_pos (high - low + 1 - (k - low)) (show 0 < high - low + 1 by omega)
  omega

theorem inverted_getD (low high : Int) (key : List Int) (hr : low < high) (i : Nat)
    (hi : i < key.length) :
    (inverted low high key).getD i 0
      = low + (high - low + 1 - (key.getD i 0 - low)) % (high - low + 1) := by
  rw [inverted_eq low high key hr, List.getD_eq_getElem?_getD, List.getElem?_map,
    List.getD_eq_getElem?_getD, List.getElem?_eq_getElem hi]
  rfl

theorem inverted_cancel (low high : Int) (key : List Int) (hr : low < high) (i : Nat)
    (hi : i < key.length) :
    ((key.getD i 0 - low) + ((inverted low high key).getD i 0 - low)) % (high - low + 1)
      = 0 := by
  rw [inverted_getD low high key hr i hi]
  have : key.getD i 0 - low
      + (low + (high - low + 1 - (key.getD i 0 - low)) % (high - low + 1) - low)
      = (high - low + 1 - (key.getD i 0 - low)) % (high - low + 1)
        + (key.getD i 0 - low) := by ring
  rw [this, Int.emod_add_emod]
  have : high - low + 1 - (key.getD i 0 - low) + (key.getD i 0 - low) = high - low + 1 := by
    ring
  rw [this, Int.emod_self]

end Cypher
namespace Cypher

/-! ## Decryption with the inverted key -/

theorem inverted_not_mem_zero (low high : Int) (key : List Int) (hr : low < high)
    (hnul : ¬ (low ≤ 0 ∧ 0 ≤ high)) : 0 ∉ inverted low high key :=
  fun h => hnul (inverted_mem low high key hr 0 h)

theorem not_mem_zero_of_range (low high : Int) (key : List Int)
    (hkey : ∀ k ∈ key, low ≤ k ∧ k ≤ high) (hnul : ¬ (low ≤ 0 ∧ 0 ≤ high)) : 0 ∉ key :=
  fun h => hnul (hkey 0 h)

theorem vigenere_decrypt_eq (low high : Int) (key text buf : List Int) (vla : Nat → Int)
    (hlow : -128 ≤ low) (hhigh : high ≤ 127) (hr : low < high) (hne : key ≠ [])
    (hkey : ∀ k ∈ key, low ≤ k ∧ k ≤ high) (hnul : ¬ (low ≤ 0 ∧ 0 ≤ high)) (h0 : 0 ∉ text)
    (hlen : buf.length = text.length + 1) :
    vigenere_decrypt low high (key ++ [0]) (text ++ [0]) buf vla
      = some (str "    THE KEY: " ++ inverted low high key ++ str ".\n",
          poly_scan low high (inverted low high key) 0 text ++ [0]) := by
  have hk0 := not_mem_zero_of_range low high key hkey hnul
  have hine : inverted low high key ≠ [] := by
    intro h
    have := inverted_length low high key
    rw [h] at this
    exact hne (List.length_eq_zero.1 this.symm)
  have hinv := invert_key_eq low high key ((List.range (key.length + 1)).map vla) hlow hhigh
    hr hkey (by simp)
  have henc := vigenere_encrypt_eq low high (inverted low high key) text buf hlow hhigh hr
    hine (inverted_not_mem_zero low high key hr hnul) h0 hlen
  match key, hne, hk0, hinv with
  | k :: ks, _, hk0, hinv =>
    have hk : k ≠ 0 := fun h => hk0 (by simp [h])
    have hs := strlen_terminated (k :: ks) [] hk0
    simp only [List.cons_append] at hs hinv
    simp only [vigenere_decrypt, List.cons_append, hk, ne_eq, not_false_eq_true,
      not_true_eq_false, if_false, gt_iff_lt, hr, hs, hinv, henc]

end Cypher
namespace Cypher

/-! ## Range closure, single keys and the cursor -/

theorem poly_scan_getElem_mem_iff (low high : Int) (key : List Int) (hr : low < high) :
    ∀ (text : List Int) (cursor i : Nat) (c d : Int), text[i]? = some c →
      (poly_scan low high key cursor text)[i]? = some d →
      ((low ≤ d ∧ d ≤ high) ↔ (low ≤ c ∧ c ≤ high)) := by
  intro text
  induction text with
  | nil => intro cursor i c d h; simp at h
  | cons a t ih =>
    intro cursor i c d hc hd
    by_cases ha : low ≤ a ∧ a ≤ high
    · simp only [poly_scan, ha, and_self, if_true] at hd
      cases i with
      | zero =>
        simp only [List.getElem?_cons_zero, Option.some.injEq] at hc hd
        subst hc hd
        exact shift_char_mem_iff low high _ a hr
      | succ j =>
        simp only [List.getElem?_cons_succ] at hc hd
        exact ih _ j c d hc hd
    · simp only [poly_scan, ha, if_false] at hd
      cases i with
      | zero =>
        simp only [List.getElem?_cons_zero, Option.some.injEq] at hc hd
        subst hc hd
        exact Iff.rfl
      | succ j =>
        simp only [List.getElem?_cons_succ] at hc hd
        exact ih _ j c d hc hd

theorem poly_scan_single (low high k : Int) :
    ∀ text : List Int, poly_scan low high [k] 0 text
      = text.map (shift_char low high (k - low)) := by
  intro text
  induction text with
  | nil => simp [poly_scan]
  | cons a t ih =>
    by_cases ha : low ≤ a ∧ a ≤ high
    · simp only [poly_scan, ha, and_self, if_true, List.length_singleton, Nat.mod_one, ih,
        List.map_cons, List.getD_cons_zero]
    · simp only [poly_scan, ha, if_false, ih, List.map_cons,
        shift_char_not_mem low high _ a ha]

theorem vigenere_cursors_length (low high : Int) (len : Nat) :
    ∀ (text : List Int) (cursor : Nat), 0 ∉ text →
      (vigenere_cursors low high len cursor (text ++ [0])).length = text.length := by
  intro text
  induction text with
  | nil => intro cursor _; simp [vigenere_cursors]
  | cons a t ih =>
    intro cursor h0
    have ha : a ≠ 0 := fun h => h0 (by simp [h])
    have ht : 0 ∉ t := fun h => h0 (by simp [h])
    rw [List.cons_append, vigenere_cursors]
    by_cases hm : a ≥ low ∧ a ≤ high
    · simp only [ha, if_false, hm, and_self, if_true, List.length_cons, ih _ ht]
    · simp only [ha, if_false, hm, List.length_cons, ih _ ht]

theorem vigenere_cursors_lt (low high : Int) (len : Nat) :
    ∀ (text : List Int) (cursor : Nat), cursor < len →
      ∀ e ∈ vigenere_cursors low high len cursor text, e.1 < len := by
  intro text
  induction text with
  | nil => intro cursor _ e he; simp [vigenere_cursors] at he
  | cons a t ih =>
    intro cursor hcur e he
    rw [vigenere_cursors] at he
    by_cases ha : a = 0
    · simp [ha] at he
    · by_cases hm : a ≥ low ∧ a ≤ high
      · simp only [ha, if_false, hm, and_self, if_true, List.mem_cons] at he
        rcases he with he | he
        · rw [he]; exact hcur
        · exact ih _ (Nat.mod_lt _ (by omega)) e he
      · simp only [ha, if_false, hm, List.mem_cons] at he
        rcases he with he | he
        · rw [he]; exact hcur
        · exact ih _ hcur e he

theorem vigenere_cell_eq (low high : Int) (key : List Int) (hlow : -128 ≤ low)
    (hhigh : high ≤ 127) (hr : low < high) (cursor : Nat) (p : Int)
    (hp : low ≤ p ∧ p ≤ high) :
    vigenere_cell low high key (cursor, p)
      = shift_char low high (key.getD cursor 0 - low) p := by
  have hs : 0 < high - low + 1 := by omega
  have hp2 : p ≥ low ∧ p ≤ high := hp
  simp only [vigenere_cell, hp2, and_self, if_true]
  rw [key_normalized_eq _ _ hs,
    caesar_cell_eq_shift_char low high _ hlow hhigh (Int.emod_nonneg _ (by omega))]
  exact shift_char_congr low high _ _ p (Int.emod_emod _ _)

theorem poly_scan_eq_cursors (low high : Int) (key : List Int) (hlow : -128 ≤ low)
    (hhigh : high ≤ 127) (hr : low < high) :
    ∀ (text : List Int) (cursor : Nat), 0 ∉ text →
      poly_scan low high key cursor text
        = (vigenere_cursors low high key.length cursor (text ++ [0])).map
            (vigenere_cell low high key) := by
  intro text
  induction text with
  | nil => intro cursor _; simp [poly_scan, vigenere_cursors]
  | cons a t ih =>
    intro cursor h0
    have ha : a ≠ 0 := fun h => h0 (by simp [h])
    have ht : 0 ∉ t := fun h => h0 (by simp [h])
    rw [List.cons_append, vigenere_cursors]
    by_cases hm : low ≤ a ∧ a ≤ high
    · have hm2 : a ≥ low ∧ a ≤ high := hm
      simp only [poly_scan, hm, and_self, if_true, ha, if_false, hm2, List.map_cons,
        vigenere_cell_eq low high key hlow hhigh hr cursor a hm, ih _ ht]
    · have hm2 : ¬ (a ≥ low ∧ a ≤ high) := hm
      simp only [poly_scan, hm, if_false, ha, hm2, List.map_cons, ih _ ht, vigenere_cell]

end Cypher
namespace Cypher

/-! ## Library functions on terminated strings -/

theorem is_text_not_mem_zero (t : List Int) (h : is_text t) : 0 ∉ t :=
  fun h0 => (h 0 h0).1 rfl

theorem is_text_cons (c : Int) (t : List Int) (h : is_text (c :: t)) :
    (c ≠ 0 ∧ -128 ≤ c ∧ c ≤ 127) ∧ is_text t :=
  ⟨h c (by simp), fun d hd => h d (by simp [hd])⟩

theorem strcmp_terminated :
    ∀ a b : List Int, is_text a → is_text b →
      ∃ r : Int, strcmp (a ++ [0]) (b ++ [0]) = some r ∧ (r = 0 ↔ a = b) := by
  intro a
  induction a with
  | nil =>
    intro b _ hb
    cases b with
    | nil => exact ⟨0, by simp [strcmp], by simp⟩
    | cons y ys =>
      obtain ⟨⟨hy0, hy1, hy2⟩, _⟩ := is_text_cons y ys hb
      have hne : (0 : Int) ≠ y := fun h => hy0 h.symm
      refine ⟨0 % 256 - y % 256, by simp [strcmp, hne], ?_⟩
      constructor
      · intro h; omega
      · intro h; simp at h
  | cons x xs ih =>
    intro b ha hb
    obtain ⟨⟨hx0, hx1, hx2⟩, hxs⟩ := is_text_cons x xs ha
    cases b with
    | nil =>
      refine ⟨x % 256 - 0 % 256, by simp [strcmp, hx0], ?_⟩
      constructor
      · intro h; omega
      · intro h; simp at h
    | cons y ys =>
      obtain ⟨⟨hy0, hy1, hy2⟩, hys⟩ := is_text_cons y ys hb
      by_cases hxy : x = y
      · subst hxy
        obtain ⟨r, hr, hiff⟩ := ih ys hxs hys
        refine ⟨r, by simp [strcmp, hx0, hr], ?_⟩
        rw [hiff]
        simp
      · refine ⟨x % 256 - y % 256, by simp [strcmp, hxy], ?_⟩
        constructor
        · intro h; omega
        · intro h
          simp only [List.cons.injEq] at h
          exact absurd h.1 hxy

theorem mem_dropWhile_zero (p : Int → Bool) (hp : p 0 = false) :
    ∀ l : List Int, 0 ∈ l → 0 ∈ l.dropWhile p := by
  intro l
  induction l with
  | nil => intro h; simp at h
  | cons a t ih =>
    intro h
    by_cases ha : p a = true
    · have hne : (0 : Int) ≠ a := by
        intro h0
        rw [← h0, hp] at ha
        exact Bool.noConfusion ha
      rw [List.dropWhile_cons_of_pos ha]
      rcases List.mem_cons.1 h with h | h
      · exact absurd h hne
      · exact ih h
    · rw [List.dropWhile_cons_of_neg ha]
      exact h

theorem strtol_rest (signed : Bool × List Int) (nptr : List Int) (hn : nptr ≠ [])
    (hmem : (0 : Int) ∈ signed.2) :
    ∃ (v e : Int) (rest : List Int),
      (if signed.2.takeWhile isdigit = [] then some ((0 : Int), nptr)
        else some (max LONG_MIN (min LONG_MAX
            (if signed.1 then -(signed.2.takeWhile isdigit).foldl
                (fun acc d => acc * 10 + (d - 48)) 0
              else (signed.2.takeWhile isdigit).foldl (fun acc d => acc * 10 + (d - 48)) 0)),
          signed.2.dropWhile isdigit)) = some (v, e :: rest) := by
  by_cases hd : signed.2.takeWhile isdigit = []
  · simp only [hd, if_true]
    cases nptr with
    | nil => exact absurd rfl hn
    | cons a t => exact ⟨0, a, t, rfl⟩
  · simp only [hd, if_false]
    have hdrop := mem_dropWhile_zero isdigit (by decide) _ hmem
    cases hdl : signed.2.dropWhile isdigit with
    | nil => rw [hdl] at hdrop; simp at hdrop
    | cons e rest => exact ⟨_, e, rest, rfl⟩

theorem strtol_sign_mem :
    ∀ s : List Int, (0 : Int) ∈ s →
      (0 : Int) ∈ (match s with
        | 45 :: r => (true, r)
        | 43 :: r => (false, r)
        | _ => (false, s) : Bool × List Int).2 := by
  intro s hmem
  split
  · rename_i r
    rcases List.mem_cons.1 hmem with h | h
    · exact absurd h (by decide)
    · exact h
  · rename_i r
    rcases List.mem_cons.1 hmem with h | h
    · exact absurd h (by decide)
    · exact h
  · exact hmem

theorem strtol_terminated (key : List Int) (h0 : 0 ∉ key) :
    ∃ (v e : Int) (rest : List Int), strtol (key ++ [0]) = some (v, e :: rest) := by
  have hs := strlen_terminated key [] h0
  have hmem : (0 : Int) ∈ (key ++ [0]).dropWhile isspace :=
    mem_dropWhile_zero isspace (by decide) _ (by simp)
  unfold strtol
  simp only [hs]
  exact strtol_rest _ (key ++ [0]) (by simp) (strtol_sign_mem _ hmem)

theorem key_has_invalid_char_terminated :
    ∀ key : List Int, 0 ∉ key →
      key_has_invalid_char (key ++ [0]) = some (decide (∃ k ∈ key, k < 65 ∨ k > 90)) := by
  intro key
  induction key with
  | nil => intro _; simp [key_has_invalid_char]
  | cons a t ih =>
    intro h0
    have ha : a ≠ 0 := fun h => h0 (by simp [h])
    have ht : 0 ∉ t := fun h => h0 (by simp [h])
    rw [List.cons_append, key_has_invalid_char]
    by_cases hbad : a < 65 ∨ a > 90
    · simp [ha, hbad]
    · simp [ha, hbad, ih ht]

end Cypher
namespace Cypher

/-! ## The paths of `cli` -/

theorem caesar_output (k : Int) (msg buf : List Int) (h0 : 0 ∉ msg)
    (hlen : buf.length = msg.length + 1) :
    caesar_encrypt 65 90 k (msg ++ [0]) buf
        = some (msg.map (shift_char 65 90 (k % (90 - 65 + 1))) ++ [0])
      ∧ 0 ∉ msg.map (shift_char 65 90 (k % (90 - 65 + 1))) := by
  refine ⟨caesar_encrypt_shift 65 90 k msg buf (by decide) (by decide) (by decide) h0 hlen,
    fun h => ?_⟩
  obtain ⟨c, hc, e⟩ := List.mem_map.1 h
  exact shift_char_ne_zero 65 90 _ c (by decide) (by decide) (fun hz => h0 (hz ▸ hc)) e

theorem cli_print (printed out : List Int) (h0 : 0 ∉ out) :
    (match strlen (out ++ [0]) with
      | none => none
      | some _ =>
        some ({ status := 0
                stdout := printed ++ c_str (out ++ [0]) ++ str "\n"
                stderr := [] } : Outcome))
      = some { status := 0, stdout := printed ++ out ++ str "\n", stderr := [] } := by
  rw [strlen_terminated out [] h0, c_str_terminated out [] h0]

theorem cli_run_caesar (decrypt : Bool) (key msg : List Int) (env : Env) (hk : 0 ∉ key)
    (hm : 0 ∉ msg) :
    ∃ (v e : Int) (rest : List Int), strtol (key ++ [0]) = some (v, e :: rest)
      ∧ cli_run ((if decrypt then str "caesar-decrypt" else str "caesar-encrypt") ++ [0])
          (key ++ [0]) (msg ++ [0]) env
        = if e ≠ 0 then fail (str "Error: Invalid integer key.\n")
          else if v < INT_MIN ∨ v > INT_MAX then
            fail (str "Error: Integer key is out of range.\n")
          else if msg = [] then fail (str "Error: Input message is an empty string.\n")
          else if env.malloc_ok = false then
            fail (str "Error: Memory allocation for output message failed.\n")
          else some { status := 0
                      stdout := msg.map (shift_char 65 90
                          ((if decrypt then toInt (-(toInt v)) else toInt v) % (90 - 65 + 1)))
                        ++ str "\n"
                      stderr := [] } := by
  obtain ⟨v, e, rest, hst⟩ := strtol_terminated key hk
  refine ⟨v, e, rest, hst, ?_⟩
  have hlen := strlen_terminated msg [] hm
  cases decrypt with
  | false =>
    have s1 : strcmp (str "caesar-encrypt" ++ [0]) (str "caesar-encrypt" ++ [0]) = some 0 := by
      decide
    have s2 : strcmp (str "caesar-encrypt" ++ [0]) (str "caesar-decrypt" ++ [0]) = some 1 := by
      decide
    have s3 : strcmp (str "caesar-encrypt" ++ [0]) (str "vigenere-encrypt" ++ [0])
        = some (-19) := by decide
    have s4 : strcmp (str "caesar-encrypt" ++ [0]) (str "vigenere-decrypt" ++ [0])
        = some (-19) := by decide
    simp only [Bool.false_eq_true, if_false, cli_run, s1, s2, s3, s4, cli_key_error, hst]
    by_cases he : e ≠ 0
    · simp [he]
    · by_cases hv : v < INT_MIN ∨ v > INT_MAX
      · simp [he, hv]
      · cases msg with
        | nil => simp [he, hv]
        | cons a t =>
          have ha : a ≠ 0 := fun h => hm (by simp [h])
          rw [List.cons_append] at hlen
          by_cases hmal : env.malloc_ok = false
          · simp [he, hv, ha, hlen, hmal]
          · obtain ⟨h1, h2⟩ := caesar_output (toInt v) (a :: t)
              ((List.range ((a :: t).length + 1)).map env.heap) hm (by simp)
            have hp := cli_print [] _ h2
            simp only [List.cons_append] at h1 hp
            simp only [he, hv, if_false, List.cons_append, ha, hlen, hmal, cli_transform,
              decide_True, decide_False, true_or, if_true, hst, h1, Option.map_some',
              reduceCtorEq, not_false_eq_true, ne_eq, not_true_eq_false]
            simpa using hp
  | true =>
    have s1 : strcmp (str "caesar-decrypt" ++ [0]) (str "caesar-encrypt" ++ [0])
        = some (-1) := by decide
    have s2 : strcmp (str "caesar-decrypt" ++ [0]) (str "caesar-decrypt" ++ [0]) = some 0 := by
      decide
    have s3 : strcmp (str "caesar-decrypt" ++ [0]) (str "vigenere-encrypt" ++ [0])
        = some (-19) := by decide
    have s4 : strcmp (str "caesar-decrypt" ++ [0]) (str "vigenere-decrypt" ++ [0])
        = some (-19) := by decide
    simp only [if_true, cli_run, s1, s2, s3, s4, cli_key_error, hst]
    by_cases he : e ≠ 0
    · simp [he]
    · by_cases hv : v < INT_MIN ∨ v > INT_MAX
      · simp [he, hv]
      · cases msg with
        | nil => simp [he, hv]
        | cons a t =>
          have ha : a ≠ 0 := fun h => hm (by simp [h])
          rw [List.cons_append] at hlen
          by_cases hmal : env.malloc_ok = false
          · simp [he, hv, ha, hlen, hmal]
          · obtain ⟨h1, h2⟩ := caesar_output (toInt (-(toInt v))) (a :: t)
              ((List.range ((a :: t).length + 1)).map env.heap) hm (by simp)
            have hp := cli_print [] _ h2
            simp only [List.cons_append] at h1 hp
            simp only [he, hv, if_false, List.cons_append, ha, hlen, hmal, cli_transform,
              decide_True, decide_False, or_true, if_true, hst, h1, Option.map_some',
              reduceCtorEq, not_false_eq_true, ne_eq, not_true_eq_false, caesar_decrypt]
            simpa using hp

end Cypher
namespace Cypher

theorem cli_run_vigenere (decrypt : Bool) (key msg : List Int) (env : Env) (hk : 0 ∉ key)
    (hm : 0 ∉ msg) :
    cli_run ((if decrypt then str "vigenere-decrypt" else str "vigenere-encrypt") ++ [0])
        (key ++ [0]) (msg ++ [0]) env
      = if key = [] then fail (str "Error: Key is empty string.\n")
        else if ∃ k ∈ key, k < 65 ∨ k > 90 then
          fail (str "Error: Key contains invalid characters for range 'A' - 'Z'.\n")
        else if msg = [] then fail (str "Error: Input message is an empty string.\n")
        else if env.malloc_ok = false then
          fail (str "Error: Memory allocation for output message failed.\n")
        else some { status := 0
                    stdout := str "    THE KEY: "
                      ++ (if decrypt then inverted 65 90 key else key) ++ str ".\n"
                      ++ poly_scan 65 90 (if decrypt then inverted 65 90 key else key) 0 msg
                      ++ str "\n"
                    stderr := [] } := by
  have hlen := strlen_terminated msg [] hm
  have hinv := key_has_invalid_char_terminated key hk
  have body : ∀ ve : Bool,
      (ve = true → decrypt = false) → (ve = false → decrypt = true) →
      (match cli_key_error false (key ++ [0]) with
        | none => none
        | some (some message) => fail message
        | some none =>
          match msg ++ [0] with
          | [] => none
          | m0 :: _ =>
            if m0 = 0 then fail (str "Error: Input message is an empty string.\n")
            else
              match strlen (msg ++ [0]) with
              | none => none
              | some input_length =>
                if env.malloc_ok = false then
                  fail (str "Error: Memory allocation for output message failed.\n")
                else
                  match cli_transform false false ve (key ++ [0]) (msg ++ [0])
                      ((List.range (input_length + 1)).map env.heap) env with
                  | none => none
                  | some (printed, output_message) =>
                    match strlen output_message with
                    | none => none
                    | some _ =>
                      some ({ status := 0
                              stdout := printed ++ c_str output_message ++ str "\n"
                              stderr := [] } : Outcome))
        = if key = [] then fail (str "Error: Key is empty string.\n")
          else if ∃ k ∈ key, k < 65 ∨ k > 90 then
            fail (str "Error: Key contains invalid characters for range 'A' - 'Z'.\n")
          else if msg = [] then fail (str "Error: Input message is an empty string.\n")
          else if env.malloc_ok = false then
            fail (str "Error: Memory allocation for output message failed.\n")
          else some { status := 0
                      stdout := str "    THE KEY: "
                        ++ (if decrypt then inverted 65 90 key else key) ++ str ".\n"
                        ++ poly_scan 65 90 (if decrypt then inverted 65 90 key else key) 0 msg
                        ++ str "\n"
                      stderr := [] } := by
    intro ve hve1 hve2
    cases key with
    | nil => simp [cli_key_error]
    | cons a t =>
      have ha : a ≠ 0 := fun h => hk (by simp [h])
      rw [List.cons_append] at hinv
      by_cases hbad : ∃ k ∈ a :: t, k < 65 ∨ k > 90
      · simp only [cli_key_error, Bool.false_eq_true, if_false, List.cons_append, ha, hinv,
          hbad, decide_True, reduceCtorEq, if_true]
      · have hkey : ∀ k ∈ a :: t, (65 : Int) ≤ k ∧ k ≤ 90 := by
          intro k hkm
          by_contra hcon
          exact hbad ⟨k, hkm, by omega⟩
        cases msg with
        | nil =>
          simp only [cli_key_error, Bool.false_eq_true, if_false, List.cons_append, ha, hinv,
            hbad, decide_False, reduceCtorEq, List.nil_append, if_true]
        | cons b u =>
          have hb : b ≠ 0 := fun h => hm (by simp [h])
          rw [List.cons_append] at hlen
          by_cases hmal : env.malloc_ok = false
          · simp only [cli_key_error, Bool.false_eq_true, if_false, List.cons_append, ha,
              hinv, hbad, decide_False, reduceCtorEq, hb, hlen, hmal, if_true]
          · cases ve with
            | true =>
              have hd := hve1 rfl
              subst hd
              have henc := vigenere_encrypt_eq 65 90 (a :: t) (b :: u)
                ((List.range ((b :: u).length + 1)).map env.heap) (by decide) (by decide)
                (by decide) (by simp) hk hm (by simp)
              have hp := cli_print (str "    THE KEY: " ++ (a :: t) ++ str ".\n") _
                (poly_scan_not_mem_zero 65 90 (a :: t) (by decide) (by decide) (b :: u) 0 hm)
              simp only [List.cons_append] at henc hp
              simp only [cli_key_error, Bool.false_eq_true, if_false, List.cons_append, ha,
                hinv, hbad, decide_False, reduceCtorEq, hb, hlen, hmal, cli_transform,
                false_or, if_true, henc, hp]
            | false =>
              have hd := hve2 rfl
              subst hd
              have hdec := vigenere_decrypt_eq 65 90 (a :: t) (b :: u)
                ((List.range ((b :: u).length + 1)).map env.heap) env.vla (by decide)
                (by decide) (by decide) (by simp) hkey (by decide) hm (by simp)
              have hp := cli_print (str "    THE KEY: " ++ inverted 65 90 (a :: t) ++ str ".\n")
                _ (poly_scan_not_mem_zero 65 90 (inverted 65 90 (a :: t)) (by decide)
                  (by decide) (b :: u) 0 hm)
              simp only [List.cons_append] at hdec hp
              simp only [cli_key_error, Bool.false_eq_true, if_false, List.cons_append, ha,
                hinv, hbad, decide_False, reduceCtorEq, hb, hlen, hmal, cli_transform,
                false_or, if_true, hdec, hp]
  cases decrypt with
  | false =>
    have s1 : strcmp (str "vigenere-encrypt" ++ [0]) (str "caesar-encrypt" ++ [0])
        = some 19 := by decide
    have s2 : strcmp (str "vigenere-encrypt" ++ [0]) (str "caesar-decrypt" ++ [0])
        = some 19 := by decide
    have s3 : strcmp (str "vigenere-encrypt" ++ [0]) (str "vigenere-encrypt" ++ [0])
        = some 0 := by decide
    have s4 : strcmp (str "vigenere-encrypt" ++ [0]) (str "vigenere-decrypt" ++ [0])
        = some 1 := by decide
    have hb := body true (fun _ => rfl) (fun h => Bool.noConfusion h)
    simp only [Bool.false_eq_true, if_false] at hb ⊢
    rw [← hb]
    simp [cli_run, s1, s2, s3, s4]
  | true =>
    have s1 : strcmp (str "vigenere-decrypt" ++ [0]) (str "caesar-encrypt" ++ [0])
        = some 19 := by decide
    have s2 : strcmp (str "vigenere-decrypt" ++ [0]) (str "caesar-decrypt" ++ [0])
        = some 19 := by decide
    have s3 : strcmp (str "vigenere-decrypt" ++ [0]) (str "vigenere-encrypt" ++ [0])
        = some (-1) := by decide
    have s4 : strcmp (str "vigenere-decrypt" ++ [0]) (str "vigenere-decrypt" ++ [0])
        = some 0 := by decide
    have hb := body false (fun h => Bool.noConfusion h) (fun _ => rfl)
    simp only [if_true] at hb ⊢
    rw [← hb]
    simp [cli_run, s1, s2, s3, s4]

theorem is_text_operations : ∀ name ∈ operations, is_text name := by
  unfold is_text operations
  decide

theorem cli_run_invalid (op keyText input_message : List Int) (env : Env) (hop : is_text op)
    (hno : op ∉ operations) :
    cli_run (op ++ [0]) keyText input_message env
      = fail (str "Error: " ++ op ++ str (" is an invalid operation, must use one of "
          ++ "'caesar-encrypt', 'caesar-decrypt', 'vigenere-encrypt', or 'vigenere-decrypt'.\n"))
      := by
  obtain ⟨r1, h1, e1⟩ := strcmp_terminated op (str "caesar-encrypt") hop
    (is_text_operations _ (by simp [operations]))
  obtain ⟨r2, h2, e2⟩ := strcmp_terminated op (str "caesar-decrypt") hop
    (is_text_operations _ (by simp [operations]))
  obtain ⟨r3, h3, e3⟩ := strcmp_terminated op (str "vigenere-encrypt") hop
    (is_text_operations _ (by simp [operations]))
  obtain ⟨r4, h4, e4⟩ := strcmp_terminated op (str "vigenere-decrypt") hop
    (is_text_operations _ (by simp [operations]))
  have n1 : r1 ≠ 0 := fun h => hno (by rw [e1.1 h]; simp [operations])
  have n2 : r2 ≠ 0 := fun h => hno (by rw [e2.1 h]; simp [operations])
  have n3 : r3 ≠ 0 := fun h => hno (by rw [e3.1 h]; simp [operations])
  have n4 : r4 ≠ 0 := fun h => hno (by rw [e4.1 h]; simp [operations])
  simp only [cli_run, h1, h2, h3, h4, ne_eq, n1, n2, n3, n4, not_false_eq_true, and_self,
    if_true, c_str_terminated op [] (is_text_not_mem_zero op hop)]

end Cypher
namespace Cypher

/-! ## Outcomes of `cli` -/

theorem cli_key_error_mem (caesar : Bool) (keyText : List Int) (m : List Int)
    (h : cli_key_error caesar keyText = some (some m)) :
    m = str "Error: Invalid integer key.\n" ∨ m = str "Error: Integer key is out of range.\n"
      ∨ m = str "Error: Key is empty string.\n"
      ∨ m = str "Error: Key contains invalid characters for range 'A' - 'Z'.\n" := by
  unfold cli_key_error at h
  split at h
  · split at h
    · exact absurd h (by simp)
    · split at h
      · exact absurd h (by simp)
      · split at h
        · simp only [Option.some.injEq] at h
          exact Or.inl h.symm
        · split at h
          · simp only [Option.some.injEq] at h
            exact Or.inr (Or.inl h.symm)
          · exact absurd h (by simp)
  · split at h
    · exact absurd h (by simp)
    · split at h
      · simp only [Option.some.injEq] at h
        exact Or.inr (Or.inr (Or.inl h.symm))
      · split at h
        · exact absurd h (by simp)
        · simp only [Option.some.injEq] at h
          exact Or.inr (Or.inr (Or.inr h.symm))
        · exact absurd h (by simp)

theorem cli_run_outcome (program operation keyText input_message : List Int) (env : Env)
    (out : Outcome) (h : cli_run operation keyText input_message env = some out) :
    (out.status = 1 ∧ out.stdout = []
        ∧ out.stderr ∈ cli_error_messages [program, operation, keyText, input_message])
      ∨ (out.status = 0 ∧ out.stderr = []) := by
  unfold cli_run at h
  split at h
  · split at h
    · simp only [fail, Option.some.injEq] at h
      subst h
      exact Or.inl ⟨rfl, rfl, by simp [cli_error_messages]⟩
    · split at h
      · exact absurd h (by simp)
      · rename_i message hke
        simp only [fail, Option.some.injEq] at h
        subst h
        refine Or.inl ⟨rfl, rfl, ?_⟩
        rcases cli_key_error_mem _ _ _ hke with hm | hm | hm | hm <;>
          simp [cli_error_messages, hm]
      · split at h
        · exact absurd h (by simp)
        · split at h
          · simp only [fail, Option.some.injEq] at h
            subst h
            exact Or.inl ⟨rfl, rfl, by simp [cli_error_messages]⟩
          · split at h
            · exact absurd h (by simp)
            · split at h
              · simp only [fail, Option.some.injEq] at h
                subst h
                exact Or.inl ⟨rfl, rfl, by simp [cli_error_messages]⟩
              · split at h
                · exact absurd h (by simp)
                · split at h
                  · exact absurd h (by simp)
                  · simp only [Option.some.injEq] at h
                    subst h
                    exact Or.inr ⟨rfl, rfl⟩
  · exact absurd h (by simp)

theorem cli_outcome (argc : Int) (argv : List (List Int)) (env : Env) (out : Outcome)
    (h : cli argc argv env = some out) :
    (out.status = 1 ∧ out.stdout = [] ∧ out.stderr ∈ cli_error_messages argv)
      ∨ (out.status = 0 ∧ out.stderr = []) := by
  unfold cli at h
  split at h
  · split at h
    · exact absurd h (by simp)
    · rename_i program hp
      simp only [fail, Option.some.injEq] at h
      subst h
      refine Or.inl ⟨rfl, rfl, ?_⟩
      simp [cli_error_messages, List.getD_eq_getElem?_getD, hp]
  · split at h
    · rename_i operation keyText input_message h1 h2 h3
      have hm : cli_error_messages argv
          = cli_error_messages [argv.getD 0 [], operation, keyText, input_message] := by
        simp [cli_error_messages, List.getD_eq_getElem?_getD, h1]
      rw [hm]
      exact cli_run_outcome _ operation keyText input_message env out h
    · exact absurd h (by simp)

end Cypher
namespace Cypher

theorem cli_four (program operation keyText input_message : List Int) (env : Env) :
    cli 4 [program, operation, keyText, input_message] env
      = cli_run operation keyText input_message env := by
  simp [cli]

theorem mem_operations (op : List Int) (h : op ∈ operations) :
    (op = str "caesar-encrypt" ∨ op = str "caesar-decrypt")
      ∨ (op = str "vigenere-encrypt" ∨ op = str "vigenere-decrypt") := by
  simp only [operations, List.mem_cons, List.mem_singleton, List.not_mem_nil, or_false] at h
  rcases h with h | h | h | h
  · exact Or.inl (Or.inl h)
  · exact Or.inl (Or.inr h)
  · exact Or.inr (Or.inl h)
  · exact Or.inr (Or.inr h)

/-- The Caesar operations: the run returns, with status `1` on an empty message and with
status `0` or `1` in all cases. -/
theorem cli_run_caesar_status (op key msg : List Int) (env : Env)
    (hop : op = str "caesar-encrypt" ∨ op = str "caesar-decrypt") (hk : 0 ∉ key)
    (hm : 0 ∉ msg) :
    ∃ out : Outcome, cli_run (op ++ [0]) (key ++ [0]) (msg ++ [0]) env = some out
      ∧ (msg = [] → out.status = 1) := by
  have key_fact : ∀ decrypt : Bool,
      ∃ out : Outcome,
        cli_run ((if decrypt then str "caesar-decrypt" else str "caesar-encrypt") ++ [0])
          (key ++ [0]) (msg ++ [0]) env = some out
        ∧ (msg = [] → out.status = 1) := by
    intro decrypt
    obtain ⟨v, e, rest, _, h⟩ := cli_run_caesar decrypt key msg env hk hm
    rw [h]
    by_cases h1 : e ≠ 0
    · exact ⟨_, by rw [if_pos h1]; rfl, fun _ => rfl⟩
    · by_cases h2 : v < INT_MIN ∨ v > INT_MAX
      · exact ⟨_, by rw [if_neg h1, if_pos h2]; rfl, fun _ => rfl⟩
      · by_cases h3 : msg = []
        · exact ⟨_, by rw [if_neg h1, if_neg h2, if_pos h3]; rfl, fun _ => rfl⟩
        · by_cases h4 : env.malloc_ok = false
          · exact ⟨_, by rw [if_neg h1, if_neg h2, if_neg h3, if_pos h4]; rfl, fun _ => rfl⟩
          · exact ⟨_, by rw [if_neg h1, if_neg h2, if_neg h3, if_neg h4],
              fun h => absurd h h3⟩
  rcases hop with hop | hop
  · subst hop
    simpa using key_fact false
  · subst hop
    simpa using key_fact true

/-- The Vigenere operations: the run returns, and its status is `0` exactly when the key is
non-empty with all characters in `'A'..'Z'`, the message is non-empty and `malloc`
succeeds. -/
theorem cli_run_vigenere_status (op key msg : List Int) (env : Env)
    (hop : op = str "vigenere-encrypt" ∨ op = str "vigenere-decrypt") (hk : 0 ∉ key)
    (hm : 0 ∉ msg) :
    ∃ out : Outcome, cli_run (op ++ [0]) (key ++ [0]) (msg ++ [0]) env = some out
      ∧ (out.status = 0 ∨ out.status = 1)
      ∧ (out.status = 0 ↔ (key ≠ [] ∧ (∀ k ∈ key, (65 : Int) ≤ k ∧ k ≤ 90) ∧ msg ≠ []
          ∧ env.malloc_ok = true)) := by
  have key_fact : ∀ decrypt : Bool,
      ∃ out : Outcome,
        cli_run ((if decrypt then str "vigenere-decrypt" else str "vigenere-encrypt") ++ [0])
          (key ++ [0]) (msg ++ [0]) env = some out
        ∧ (out.status = 0 ∨ out.status = 1)
        ∧ (out.status = 0 ↔ (key ≠ [] ∧ (∀ k ∈ key, (65 : Int) ≤ k ∧ k ≤ 90) ∧ msg ≠ []
            ∧ env.malloc_ok = true)) := by
    intro decrypt
    rw [cli_run_vigenere decrypt key msg env hk hm]
    by_cases h1 : key = []
    · refine ⟨_, by rw [if_pos h1]; rfl, Or.inr rfl, ?_⟩
      simp [h1]
    · by_cases h2 : ∃ k ∈ key, k < 65 ∨ k > 90
      · refine ⟨_, by rw [if_neg h1, if_pos h2]; rfl, Or.inr rfl, ?_⟩
        obtain ⟨k, hkm, hbad⟩ := h2
        constructor
        · intro h; exact absurd h (by decide)
        · intro h
          have := h.2.1 k hkm
          omega
      · have hkey : ∀ k ∈ key, (65 : Int) ≤ k ∧ k ≤ 90 := by
          intro k hkm
          by_contra hcon
          exact h2 ⟨k, hkm, by omega⟩
        by_cases h3 : msg = []
        · refine ⟨_, by rw [if_neg h1, if_neg h2, if_pos h3]; rfl, Or.inr rfl, ?_⟩
          simp [h3]
        · by_cases h4 : env.malloc_ok = false
          · refine ⟨_, by rw [if_neg h1, if_neg h2, if_neg h3, if_pos h4]; rfl, Or.inr rfl,
              ?_⟩
            simp [h4]
          · refine ⟨_, by rw [if_neg h1, if_neg h2, if_neg h3, if_neg h4], Or.inl rfl, ?_⟩
            simp only [true_iff]
            exact ⟨h1, hkey, h3, by simpa using h4⟩
  rcases hop with hop | hop
  · subst hop
    simpa using key_fact false
  · subst hop
    simpa using key_fact true

end Cypher
namespace Cypher

/-! ## Claims on the Shift Transform -/

/-- C7. For a range with `range_high > range_low` and any key, the value
`((key % range_size) + range_size) % range_size` computed with the truncating `%` of C is the
flooring modulo of `key` by `range_size` and lies in `[0, range_size)`; the assertions of
`caesar_encrypt` therefore pass and the call is the loop run with that key. -/
theorem caesar_key_normalisation (range_low range_high key : Int)
    (hr : range_high > range_low) :
    key_normalized (range_high - range_low + 1) key
        = Int.fmod key (range_high - range_low + 1)
      ∧ 0 ≤ key_normalized (range_high - range_low + 1) key
      ∧ key_normalized (range_high - range_low + 1) key < range_high - range_low + 1
      ∧ ∀ plain_text cipher_text : List Int,
          caesar_encrypt range_low range_high key plain_text cipher_text
            = caesar_loop range_low range_high
                (key_normalized (range_high - range_low + 1) key)
                (range_high - range_low + 1) plain_text cipher_text := by
  have hs : 0 < range_high - range_low + 1 := by omega
  have hb := key_normalized_bounds (range_high - range_low + 1) key hs
  refine ⟨?_, hb.1, hb.2, ?_⟩
  · rw [key_normalized_eq _ _ hs, Int.fmod_eq_emod _ (by omega)]
  · intro plain_text cipher_text
    unfold caesar_encrypt
    simp only [hr, not_true_eq_false, if_false, ge_iff_le, hb.1, hb.2, and_self]

/-- C7, at the range `'A'..'Z'` and the key `INT_MIN`. -/
theorem caesar_key_normalisation_witness :
    key_normalized (90 - 65 + 1) INT_MIN = Int.fmod INT_MIN (90 - 65 + 1)
      ∧ 0 ≤ key_normalized (90 - 65 + 1) INT_MIN
      ∧ key_normalized (90 - 65 + 1) INT_MIN < 90 - 65 + 1
      ∧ ∀ plain_text cipher_text : List Int,
          caesar_encrypt 65 90 INT_MIN plain_text cipher_text
            = caesar_loop 65 90 (key_normalized (90 - 65 + 1) INT_MIN) (90 - 65 + 1)
                plain_text cipher_text :=
  caesar_key_normalisation 65 90 INT_MIN (by decide)

/-- C4. For a range of characters with `range_high > range_low`, any key and any text, given
as a terminated string with a buffer of the same size, `caesar_encrypt` succeeds and leaves
in the buffer, position by position, the Shift Transform of the specification:
`range_low + ((c - range_low + key_normalized) mod size)` for a character `c` in range, `c`
itself otherwise, followed by the terminator. -/
theorem caesar_encrypt_formula (range_low range_high key : Int)
    (text cipher_text : List Int) (hlow : -128 ≤ range_low) (hhigh : range_high ≤ 127)
    (hr : range_high > range_low) (h0 : 0 ∉ text)
    (hlen : cipher_text.length = text.length + 1) :
    caesar_encrypt range_low range_high key (text ++ [0]) cipher_text
      = some (shift_transform range_low range_high key text ++ [0]) := by
  rw [shift_transform_eq range_low range_high key text hr]
  exact caesar_encrypt_shift range_low range_high key text cipher_text hlow hhigh hr h0 hlen

/-- C4, at `'A'..'Z'`, key `-3` and the text `"HELLO, WORLD"`. -/
theorem caesar_encrypt_formula_witness :
    caesar_encrypt 65 90 (-3) (str "HELLO, WORLD" ++ [0]) (List.replicate 13 0)
      = some (shift_transform 65 90 (-3) (str "HELLO, WORLD") ++ [0]) :=
  caesar_encrypt_formula 65 90 (-3) (str "HELLO, WORLD") (List.replicate 13 0)
    (by decide) (by decide) (by decide) (by decide) (by decide)

/-- C8. For a range with `range_high > range_low`, any key, any integer `n` and any text,
`caesar_encrypt` succeeds with the key `key` and with the key `key + n * size`, where
`size = range_high - range_low + 1`, and leaves the same buffer. -/
theorem caesar_key_periodic (range_low range_high key n : Int) (text cipher_text : List Int)
    (hr : range_high > range_low) (h0 : 0 ∉ text)
    (hlen : cipher_text.length = text.length + 1) :
    ∃ out : List Int,
      caesar_encrypt range_low range_high key (text ++ [0]) cipher_text = some out
      ∧ caesar_encrypt range_low range_high (key + n * (range_high - range_low + 1))
          (text ++ [0]) cipher_text = some out := by
  refine ⟨_, caesar_encrypt_eq range_low range_high key text cipher_text hr h0 hlen, ?_⟩
  rw [caesar_encrypt_eq range_low range_high _ text cipher_text hr h0 hlen,
    Int.add_mul_emod_self]

/-- C8, at `'A'..'Z'`, key `3`, `n = -5` and the text `"HELLO"`. -/
theorem caesar_key_periodic_witness :
    ∃ out : List Int,
      caesar_encrypt 65 90 3 (str "HELLO" ++ [0]) (List.replicate 6 0) = some out
      ∧ caesar_encrypt 65 90 (3 + (-5) * (90 - 65 + 1)) (str "HELLO" ++ [0])
          (List.replicate 6 0) = some out :=
  caesar_key_periodic 65 90 3 (-5) (str "HELLO") (List.replicate 6 0)
    (by decide) (by decide) (by decide)

/-- C1, as stated, fails.  Over the range `0..127`, which holds the terminator, the key `63`
sends `"A"` to the terminator, and decryption of the empty string it reads gives the empty
string.  Over `'A'..'Z'` the key `INT_MIN` has no negation in `int`: `-key` is `INT_MIN`
again, and `"A"` comes back as `"E"`. -/
theorem caesar_round_trip_fails :
    ((caesar_encrypt 0 127 63 (str "A" ++ [0]) [0, 0]).bind
        (fun cipher => caesar_decrypt 0 127 63 cipher [0, 0]) = some [0, 0]
      ∧ (caesar_encrypt 0 127 63 (str "A" ++ [0]) [0, 0]).bind
        (fun cipher => caesar_decrypt 0 127 63 cipher [0, 0]) ≠ some (str "A" ++ [0]))
    ∧ ((caesar_encrypt 65 90 INT_MIN (str "A" ++ [0]) [0, 0]).bind
        (fun cipher => caesar_decrypt 65 90 INT_MIN cipher [0, 0]) = some (str "E" ++ [0])
      ∧ (caesar_encrypt 65 90 INT_MIN (str "A" ++ [0]) [0, 0]).bind
        (fun cipher => caesar_decrypt 65 90 INT_MIN cipher [0, 0])
          ≠ some (str "A" ++ [0])) := by
  decide

/-- C1, amended.  For a range of characters with `range_high > range_low` that does not hold
the terminator `0`, any `int` key other than `INT_MIN` and any text, `caesar_decrypt` on what
`caesar_encrypt` left in its buffer succeeds and leaves the text, terminated, in its own. -/
theorem caesar_round_trip (range_low range_high key : Int)
    (text cipher_text plain_text : List Int) (hlow : -128 ≤ range_low)
    (hhigh : range_high ≤ 127) (hr : range_high > range_low)
    (hnul : ¬ (range_low ≤ 0 ∧ 0 ≤ range_high)) (hmin : INT_MIN < key)
    (hmax : key ≤ INT_MAX) (h0 : 0 ∉ text) (hlen1 : cipher_text.length = text.length + 1)
    (hlen2 : plain_text.length = text.length + 1) :
    (caesar_encrypt range_low range_high key (text ++ [0]) cipher_text).bind
        (fun cipher => caesar_decrypt range_low range_high key cipher plain_text)
      = some (text ++ [0]) := by
  have hr1 : range_low < range_high := hr
  have hneg : toInt (-key) = -key := by
    apply toInt_of_mem <;> (unfold INT_MIN INT_MAX at *; omega)
  have h0c : 0 ∉ text.map (shift_char range_low range_high
      (key % (range_high - range_low + 1))) := by
    intro h
    obtain ⟨c, hc, e⟩ := List.mem_map.1 h
    exact shift_char_ne_zero range_low range_high _ c hr1 hnul
      (fun hz => h0 (hz ▸ hc)) e
  rw [caesar_encrypt_shift range_low range_high key text cipher_text hlow hhigh hr1 h0 hlen1]
  simp only [Option.some_bind, caesar_decrypt, hneg]
  rw [caesar_encrypt_shift range_low range_high (-key) _ plain_text hlow hhigh hr1 h0c
    (by simpa using hlen2), List.map_map]
  congr 2
  conv_rhs => rw [← List.map_id text]
  apply List.map_congr_left
  intro c _
  simp only [Function.comp, id]
  apply shift_char_cancel range_low range_high _ _ c hr1
  rw [← Int.add_emod]
  simp

/-- C1, amended, at `'A'..'Z'`, key `-2147483647` and the text `"HELLO WORLD"`. -/
theorem caesar_round_trip_witness :
    (caesar_encrypt 65 90 (-2147483647) (str "HELLO WORLD" ++ [0])
        (List.replicate 12 0)).bind
        (fun cipher => caesar_decrypt 65 90 (-2147483647) cipher (List.replicate 12 0))
      = some (str "HELLO WORLD" ++ [0]) :=
  caesar_round_trip 65 90 (-2147483647) (str "HELLO WORLD") (List.replicate 12 0)
    (List.replicate 12 0) (by decide) (by decide) (by decide) (by decide) (by decide)
    (by decide) (by decide) (by decide) (by decide)

end Cypher
namespace Cypher

/-! ## Claims on the Polyalphabetic Transform -/

/-- C3. For a range of characters with `range_high > range_low`, a non-empty key and any
text, given as terminated strings with a buffer of the size of the text, `vigenere_encrypt`
succeeds and leaves in the buffer, position by position, `text[i]` when it is out of range and
otherwise `range_low + ((text[i] - range_low + (key[n mod key_len] - range_low)) mod size)`
with `n` the number of in-range characters before `i`, followed by the terminator; the calls
of `caesar_encrypt` on the rest of the text change nothing of that.  It also prints the
key. -/
theorem vigenere_cursor_semantics (range_low range_high : Int)
    (key text cipher_text : List Int) (hlow : -128 ≤ range_low) (hhigh : range_high ≤ 127)
    (hr : range_high > range_low) (hne : key ≠ []) (hk0 : 0 ∉ key) (h0 : 0 ∉ text)
    (hlen : cipher_text.length = text.length + 1) :
    vigenere_encrypt range_low range_high (key ++ [0]) (text ++ [0]) cipher_text
      = some (str "    THE KEY: " ++ key ++ str ".\n",
          poly_transform range_low range_high key text ++ [0]) := by
  rw [← poly_scan_eq_transform range_low range_high key text hr]
  exact vigenere_encrypt_eq range_low range_high key text cipher_text hlow hhigh hr hne hk0
    h0 hlen

/-- C3, at `'A'..'Z'`, the key `"KEY"` and the text `"HELLO, WORLD"`. -/
theorem vigenere_cursor_semantics_witness :
    vigenere_encrypt 65 90 (str "KEY" ++ [0]) (str "HELLO, WORLD" ++ [0])
        (List.replicate 13 0)
      = some (str "    THE KEY: " ++ str "KEY" ++ str ".\n",
          poly_transform 65 90 (str "KEY") (str "HELLO, WORLD") ++ [0]) :=
  vigenere_cursor_semantics 65 90 (str "KEY") (str "HELLO, WORLD") (List.replicate 13 0)
    (by decide) (by decide) (by decide) (by decide) (by decide) (by decide) (by decide)

/-- C2, as stated, fails.  Over the range `0..127`, which holds the terminator, the key `"?"`
(shift 63) sends `"A"` to the terminator, and `vigenere_decrypt` reads an empty string. -/
theorem vigenere_round_trip_fails :
    ((vigenere_encrypt 0 127 (str "?" ++ [0]) (str "A" ++ [0]) [0, 0]).bind
        (fun r => vigenere_decrypt 0 127 (str "?" ++ [0]) r.2 [0, 0] (fun _ => 0))).map
        Prod.snd = some [0, 0]
      ∧ ((vigenere_encrypt 0 127 (str "?" ++ [0]) (str "A" ++ [0]) [0, 0]).bind
        (fun r => vigenere_decrypt 0 127 (str "?" ++ [0]) r.2 [0, 0] (fun _ => 0))).map
        Prod.snd ≠ some (str "A" ++ [0]) := by
  decide

/-- C2, amended.  For a range of characters with `range_high > range_low` that does not hold
the terminator `0`, a non-empty key with all characters in range and any text,
`vigenere_decrypt` with the key on what `vigenere_encrypt` left in its buffer succeeds and
leaves the text, terminated, in its own, whatever the array `inverted_key` held before. -/
theorem vigenere_round_trip (range_low range_high : Int)
    (key text cipher_text plain_text : List Int) (vla : Nat → Int)
    (hlow : -128 ≤ range_low) (hhigh : range_high ≤ 127) (hr : range_high > range_low)
    (hnul : ¬ (range_low ≤ 0 ∧ 0 ≤ range_high)) (hne : key ≠ [])
    (hkey : ∀ k ∈ key, range_low ≤ k ∧ k ≤ range_high) (h0 : 0 ∉ text)
    (hlen1 : cipher_text.length = text.length + 1)
    (hlen2 : plain_text.length = text.length + 1) :
    ((vigenere_encrypt range_low range_high (key ++ [0]) (text ++ [0]) cipher_text).bind
        (fun r => vigenere_decrypt range_low range_high (key ++ [0]) r.2 plain_text
          vla)).map Prod.snd
      = some (text ++ [0]) := by
  have hr1 : range_low < range_high := hr
  have hk0 := not_mem_zero_of_range range_low range_high key hkey hnul
  have hpos : 0 < key.length := List.length_pos.2 hne
  rw [vigenere_encrypt_eq range_low range_high key text cipher_text hlow hhigh hr1 hne hk0
    h0 hlen1]
  simp only [Option.some_bind]
  rw [vigenere_decrypt_eq range_low range_high key _ plain_text vla hlow hhigh hr1 hne hkey
    hnul (poly_scan_not_mem_zero range_low range_high key hr1 hnul text 0 h0)
    (by rw [poly_scan_length]; exact hlen2)]
  simp only [Option.map_some']
  rw [poly_scan_cancel range_low range_high key (inverted range_low range_high key) hr1
    (inverted_length range_low range_high key)
    (fun i hi => inverted_cancel range_low range_high key hr1 i hi) text 0 hpos]

/-- C2, amended, at `'A'..'Z'`, the key `"KEY"` and the text `"HELLO, WORLD"`. -/
theorem vigenere_round_trip_witness :
    ((vigenere_encrypt 65 90 (str "KEY" ++ [0]) (str "HELLO, WORLD" ++ [0])
        (List.replicate 13 0)).bind
        (fun r => vigenere_decrypt 65 90 (str "KEY" ++ [0]) r.2 (List.replicate 13 0)
          (fun _ => 0))).map Prod.snd
      = some (str "HELLO, WORLD" ++ [0]) :=
  vigenere_round_trip 65 90 (str "KEY") (str "HELLO, WORLD") (List.replicate 13 0)
    (List.replicate 13 0) (fun _ => 0) (by decide) (by decide) (by decide) (by decide)
    (by decide) (by decide) (by decide) (by decide) (by decide)

/-- C9. For a range of characters with `range_high > range_low` and a key with all characters
in range, `invert_key` succeeds and leaves in its buffer a key of the same length, terminated,
whose characters are `range_low + ((size - (k - range_low)) mod size)` for the characters `k`
of the key; each lies in the range, and `(k - range_low) + (k' - range_low)` is `0` modulo
`size`. -/
theorem invert_key_formula (range_low range_high : Int) (key inverted_key : List Int)
    (hlow : -128 ≤ range_low) (hhigh : range_high ≤ 127) (hr : range_high > range_low)
    (hkey : ∀ k ∈ key, range_low ≤ k ∧ k ≤ range_high)
    (hlen : inverted_key.length = key.length + 1) :
    invert_key range_low range_high (key ++ [0]) inverted_key key.length
        = some (inverted range_low range_high key ++ [0])
      ∧ (inverted range_low range_high key).length = key.length
      ∧ (∀ k1 ∈ inverted range_low range_high key, range_low ≤ k1 ∧ k1 ≤ range_high)
      ∧ ∀ i : Nat, i < key.length →
          Int.fmod ((key.getD i 0 - range_low)
            + ((inverted range_low range_high key).getD i 0 - range_low))
            (range_high - range_low + 1) = 0 := by
  have hr1 : range_low < range_high := hr
  refine ⟨invert_key_eq range_low range_high key inverted_key hlow hhigh hr1 hkey hlen,
    inverted_length range_low range_high key, inverted_mem range_low range_high key hr1,
    fun i hi => ?_⟩
  rw [Int.fmod_eq_emod _ (by omega)]
  exact inverted_cancel range_low range_high key hr1 i hi

/-- C9, at `'A'..'Z'` and the key `"KEYA"`. -/
theorem invert_key_formula_witness :
    invert_key 65 90 (str "KEYA" ++ [0]) (List.replicate 5 7) (str "KEYA").length
        = some (inverted 65 90 (str "KEYA") ++ [0])
      ∧ (inverted 65 90 (str "KEYA")).length = (str "KEYA").length
      ∧ (∀ k1 ∈ inverted 65 90 (str "KEYA"), 65 ≤ k1 ∧ k1 ≤ 90)
      ∧ ∀ i : Nat, i < (str "KEYA").length →
          Int.fmod (((str "KEYA").getD i 0 - 65) + ((inverted 65 90 (str "KEYA")).getD i 0 - 65))
            (90 - 65 + 1) = 0 :=
  invert_key_formula 65 90 (str "KEYA") (List.replicate 5 7) (by decide) (by decide)
    (by decide) (by decide) (by decide)

end Cypher
namespace Cypher

/-! ## Claims on both transforms -/

/-- C5. For a range of characters with `range_high > range_low`, any Caesar key, any
non-empty Vigenere key and any text: `caesar_encrypt` and `vigenere_encrypt` succeed and
leave every out-of-range character of the text at its position in the buffer; and when an
out-of-range character `x` is inserted anywhere into a text, `vigenere_encrypt` leaves the
same characters as before for the other positions, with `x` between them. -/
theorem pass_through (range_low range_high caesar_key x : Int)
    (key text t1 t2 b1 b2 b3 b4 : List Int)
    (hlow : -128 ≤ range_low) (hhigh : range_high ≤ 127) (hr : range_high > range_low)
    (hne : key ≠ []) (hk0 : 0 ∉ key) (h0 : 0 ∉ text) (h1 : 0 ∉ t1) (h2 : 0 ∉ t2)
    (hx0 : x ≠ 0) (hx : ¬ (range_low ≤ x ∧ x ≤ range_high))
    (hb1 : b1.length = text.length + 1) (hb2 : b2.length = text.length + 1)
    (hb3 : b3.length = t1.length + t2.length + 1)
    (hb4 : b4.length = t1.length + t2.length + 2) :
    (∃ out : List Int,
        caesar_encrypt range_low range_high caesar_key (text ++ [0]) b1 = some (out ++ [0])
        ∧ out.length = text.length
        ∧ ∀ (i : Nat) (c : Int), text[i]? = some c → ¬ (range_low ≤ c ∧ c ≤ range_high) →
            out[i]? = some c)
    ∧ (∃ printed out : List Int,
        vigenere_encrypt range_low range_high (key ++ [0]) (text ++ [0]) b2
          = some (printed, out ++ [0])
        ∧ out.length = text.length
        ∧ ∀ (i : Nat) (c : Int), text[i]? = some c → ¬ (range_low ≤ c ∧ c ≤ range_high) →
            out[i]? = some c)
    ∧ (∃ printed o1 o2 : List Int,
        o1.length = t1.length ∧ o2.length = t2.length
        ∧ vigenere_encrypt range_low range_high (key ++ [0]) ((t1 ++ t2) ++ [0]) b3
          = some (printed, (o1 ++ o2) ++ [0])
        ∧ vigenere_encrypt range_low range_high (key ++ [0]) ((t1 ++ x :: t2) ++ [0]) b4
          = some (printed, (o1 ++ x :: o2) ++ [0])) := by
  have hr1 : range_low < range_high := hr
  refine ⟨?_, ?_, ?_⟩
  · refine ⟨_, caesar_encrypt_shift range_low range_high caesar_key text b1 hlow hhigh hr1 h0
      hb1, by simp, fun i c hi hc => ?_⟩
    rw [List.getElem?_map, hi, Option.map_some',
      shift_char_not_mem range_low range_high _ c hc]
  · exact ⟨_, _, vigenere_encrypt_eq range_low range_high key text b2 hlow hhigh hr1 hne hk0
      h0 hb2, poly_scan_length range_low range_high key text 0,
      fun i c hi hc => poly_scan_getElem_not_mem range_low range_high key text 0 i c hi hc⟩
  · obtain ⟨cursor1, hsplit⟩ := poly_scan_append range_low range_high key t1 0
    have h12 : 0 ∉ t1 ++ t2 := by
      intro h
      rcases List.mem_append.1 h with h | h
      · exact h1 h
      · exact h2 h
    have h1x2 : 0 ∉ t1 ++ x :: t2 := by
      intro h
      rcases List.mem_append.1 h with h | h
      · exact h1 h
      · rcases List.mem_cons.1 h with h | h
        · exact hx0 h.symm
        · exact h2 h
    refine ⟨str "    THE KEY: " ++ key ++ str ".\n", poly_scan range_low range_high key 0 t1,
      poly_scan range_low range_high key cursor1 t2,
      poly_scan_length range_low range_high key t1 0,
      poly_scan_length range_low range_high key t2 cursor1, ?_, ?_⟩
    · rw [vigenere_encrypt_eq range_low range_high key (t1 ++ t2) b3 hlow hhigh hr1 hne hk0
        h12 (by simp [hb3]), hsplit t2]
    · rw [vigenere_encrypt_eq range_low range_high key (t1 ++ x :: t2) b4 hlow hhigh hr1 hne
        hk0 h1x2 (by simp [hb4]; omega), hsplit (x :: t2)]
      simp only [poly_scan, hx, if_false]

/-- C5, at `'A'..'Z'`, Caesar key `3`, Vigenere key `"KEY"`, the text `"HELLO WORLD"`, and a
space inserted between `"HELLO"` and `"WORLD"`. -/
theorem pass_through_witness :
    (∃ out : List Int,
        caesar_encrypt 65 90 3 (str "HELLO WORLD" ++ [0]) (List.replicate 12 0)
          = some (out ++ [0])
        ∧ out.length = (str "HELLO WORLD").length
        ∧ ∀ (i : Nat) (c : Int), (str "HELLO WORLD")[i]? = some c → ¬ (65 ≤ c ∧ c ≤ 90) →
            out[i]? = some c)
    ∧ (∃ printed out : List Int,
        vigenere_encrypt 65 90 (str "KEY" ++ [0]) (str "HELLO WORLD" ++ [0])
          (List.replicate 12 0) = some (printed, out ++ [0])
        ∧ out.length = (str "HELLO WORLD").length
        ∧ ∀ (i : Nat) (c : Int), (str "HELLO WORLD")[i]? = some c → ¬ (65 ≤ c ∧ c ≤ 90) →
            out[i]? = some c)
    ∧ (∃ printed o1 o2 : List Int,
        o1.length = (str "HELLO").length ∧ o2.length = (str "WORLD").length
        ∧ vigenere_encrypt 65 90 (str "KEY" ++ [0]) ((str "HELLO" ++ str "WORLD") ++ [0])
          (List.replicate 11 0) = some (printed, (o1 ++ o2) ++ [0])
        ∧ vigenere_encrypt 65 90 (str "KEY" ++ [0]) ((str "HELLO" ++ 32 :: str "WORLD") ++ [0])
          (List.replicate 12 0) = some (printed, (o1 ++ 32 :: o2) ++ [0])) :=
  pass_through 65 90 3 32 (str "KEY") (str "HELLO WORLD") (str "HELLO") (str "WORLD")
    (List.replicate 12 0) (List.replicate 12 0) (List.replicate 11 0) (List.replicate 12 0)
    (by decide) (by decide) (by decide) (by decide) (by decide) (by decide) (by decide)
    (by decide) (by decide) (by decide) (by decide) (by decide) (by decide) (by decide)

/-- C6, as stated, fails.  Over the range `-1..1` the valid key `"\x01"` has the inverted key
character `0`, the terminator: `vigenere_decrypt` hands `vigenere_encrypt` an empty key, the
assertion `key[0] != 0` fails and no text is produced. -/
theorem vigenere_decrypt_aborts :
    (∀ k ∈ [(1 : Int)], -1 ≤ k ∧ k ≤ 1)
      ∧ invert_key (-1) 1 [1, 0] [7, 7] 1 = some [0, 0]
      ∧ vigenere_decrypt (-1) 1 [1, 0] [1, 0] [0, 0] (fun _ => 7) = none := by
  decide

/-- C6, amended.  For a range of characters with `range_high > range_low`, any Caesar key,
any non-empty Vigenere key with all characters in range and any text, `caesar_encrypt`,
`caesar_decrypt` and `vigenere_encrypt` succeed and leave in the buffer as many characters as
the text has, followed by the terminator; `vigenere_decrypt` does so when the range does not
hold the terminator `0`. -/
theorem length_preserved (range_low range_high caesar_key : Int)
    (key text b1 b2 b3 b4 : List Int) (vla : Nat → Int)
    (hlow : -128 ≤ range_low) (hhigh : range_high ≤ 127) (hr : range_high > range_low)
    (hne : key ≠ []) (hkey : ∀ k ∈ key, range_low ≤ k ∧ k ≤ range_high) (hk0 : 0 ∉ key)
    (h0 : 0 ∉ text) (hb1 : b1.length = text.length + 1) (hb2 : b2.length = text.length + 1)
    (hb3 : b3.length = text.length + 1) (hb4 : b4.length = text.length + 1) :
    (∃ out : List Int,
        caesar_encrypt range_low range_high caesar_key (text ++ [0]) b1 = some (out ++ [0])
        ∧ out.length = text.length)
    ∧ (∃ out : List Int,
        caesar_decrypt range_low range_high caesar_key (text ++ [0]) b2 = some (out ++ [0])
        ∧ out.length = text.length)
    ∧ (∃ printed out : List Int,
        vigenere_encrypt range_low range_high (key ++ [0]) (text ++ [0]) b3
          = some (printed, out ++ [0])
        ∧ out.length = text.length)
    ∧ (¬ (range_low ≤ 0 ∧ 0 ≤ range_high) →
        ∃ printed out : List Int,
          vigenere_decrypt range_low range_high (key ++ [0]) (text ++ [0]) b4 vla
            = some (printed, out ++ [0])
          ∧ out.length = text.length) := by
  have hr1 : range_low < range_high := hr
  refine ⟨⟨_, caesar_encrypt_eq range_low range_high caesar_key text b1 hr1 h0 hb1,
      by simp⟩,
    ⟨_, caesar_encrypt_eq range_low range_high (toInt (-caesar_key)) text b2 hr1 h0 hb2,
      by simp⟩,
    ⟨_, _, vigenere_encrypt_eq range_low range_high key text b3 hlow hhigh hr1 hne hk0 h0
      hb3, poly_scan_length range_low range_high key text 0⟩,
    fun hnul => ⟨_, _, vigenere_decrypt_eq range_low range_high key text b4 vla hlow hhigh
      hr1 hne hkey hnul h0 hb4, poly_scan_length range_low range_high _ text 0⟩⟩

/-- C6, amended, at `'A'..'Z'`, Caesar key `-3`, Vigenere key `"KEY"` and the text
`"HELLO WORLD"`. -/
theorem length_preserved_witness :
    (∃ out : List Int,
        caesar_encrypt 65 90 (-3) (str "HELLO WORLD" ++ [0]) (List.replicate 12 0)
          = some (out ++ [0])
        ∧ out.length = (str "HELLO WORLD").length)
    ∧ (∃ out : List Int,
        caesar_decrypt 65 90 (-3) (str "HELLO WORLD" ++ [0]) (List.replicate 12 0)
          = some (out ++ [0])
        ∧ out.length = (str "HELLO WORLD").length)
    ∧ (∃ printed out : List Int,
        vigenere_encrypt 65 90 (str "KEY" ++ [0]) (str "HELLO WORLD" ++ [0])
          (List.replicate 12 0) = some (printed, out ++ [0])
        ∧ out.length = (str "HELLO WORLD").length)
    ∧ (¬ ((65 : Int) ≤ 0 ∧ (0 : Int) ≤ 90) →
        ∃ printed out : List Int,
          vigenere_decrypt 65 90 (str "KEY" ++ [0]) (str "HELLO WORLD" ++ [0])
            (List.replicate 12 0) (fun _ => 0) = some (printed, out ++ [0])
          ∧ out.length = (str "HELLO WORLD").length) :=
  length_preserved 65 90 (-3) (str "KEY") (str "HELLO WORLD") (List.replicate 12 0)
    (List.replicate 12 0) (List.replicate 12 0) (List.replicate 12 0) (fun _ => 0)
    (by decide) (by decide) (by decide) (by decide) (by decide) (by decide) (by decide)
    (by decide) (by decide) (by decide) (by decide)

/-! ## Claims on `cli` -/

/-- C10, at the failing input `./exe vigenere-encrypt KEY HELLO`: `cli` returns `0` and
writes nothing to standard error, but standard output receives the line
`"    THE KEY: KEY."` of `vigenere_encrypt` before the transformed message `"RIJVS"` and its
newline. -/
theorem cli_vigenere_prints_key :
    cli 4 [str "./exe" ++ [0], str "vigenere-encrypt" ++ [0], str "KEY" ++ [0],
        str "HELLO" ++ [0]] { malloc_ok := true, heap := fun _ => 0, vla := fun _ => 0 }
      = some { status := 0
               stdout := str "    THE KEY: KEY.\n" ++ str "RIJVS\n"
               stderr := [] } := by
  decide

end Cypher
namespace Cypher

/-! ## Concrete scenarios -/

/-- C14. `caesar_encrypt('A', 'Z', 3, "HELLOWORLD")` leaves `"KHOORZRUOG"` in the buffer,
and `caesar_encrypt('A', 'Z', -3, "KHOORZRUOG")` leaves `"HELLOWORLD"`. -/
theorem caesar_scenario :
    caesar_encrypt 65 90 3 (str "HELLOWORLD" ++ [0]) (List.replicate 11 0)
        = some (str "KHOORZRUOG" ++ [0])
      ∧ caesar_encrypt 65 90 (-3) (str "KHOORZRUOG" ++ [0]) (List.replicate 11 0)
        = some (str "HELLOWORLD" ++ [0]) := by
  decide

/-- C15. `vigenere_encrypt('A', 'Z', "KEY", "HELLO")` leaves `"RIJVS"` in the buffer, the
shifts being 10, 4, 24, 10, 4, and `vigenere_decrypt('A', 'Z', "KEY", "RIJVS")` leaves
`"HELLO"`, whatever the array `inverted_key` held before.  Each call also prints the key it
encrypts with. -/
theorem vigenere_scenario (vla : Nat → Int) :
    vigenere_encrypt 65 90 (str "KEY" ++ [0]) (str "HELLO" ++ [0]) (List.replicate 6 0)
        = some (str "    THE KEY: KEY.\n", str "RIJVS" ++ [0])
      ∧ (str "KEY").map (fun k => k - 65) = [10, 4, 24]
      ∧ (vigenere_cursors 65 90 3 0 (str "HELLO" ++ [0])).map
          (fun e => (str "KEY").getD e.1 0 - 65) = [10, 4, 24, 10, 4]
      ∧ vigenere_decrypt 65 90 (str "KEY" ++ [0]) (str "RIJVS" ++ [0]) (List.replicate 6 0)
          vla = some (str "    THE KEY: QWC.\n", str "HELLO" ++ [0]) := by
  refine ⟨by decide, by decide, by decide, ?_⟩
  rw [vigenere_decrypt_eq 65 90 (str "KEY") (str "RIJVS") (List.replicate 6 0) vla
    (by decide) (by decide) (by decide) (by decide) (by decide) (by decide) (by decide)
    (by decide)]
  decide

end Cypher
namespace Cypher

/-! ## Implicit properties of the transforms -/

/-- C17. For a range of characters with `range_high > range_low`, any Caesar key, any
non-empty Vigenere key and any text, `caesar_encrypt` and `vigenere_encrypt` succeed and the
character they leave at a position of the buffer is in `[range_low, range_high]` if and only
if the character of the text at that position is. -/
theorem range_closure (range_low range_high caesar_key : Int) (key text b1 b2 : List Int)
    (hlow : -128 ≤ range_low) (hhigh : range_high ≤ 127) (hr : range_high > range_low)
    (hne : key ≠ []) (hk0 : 0 ∉ key) (h0 : 0 ∉ text)
    (hb1 : b1.length = text.length + 1) (hb2 : b2.length = text.length + 1) :
    (∃ out : List Int,
        caesar_encrypt range_low range_high caesar_key (text ++ [0]) b1 = some (out ++ [0])
        ∧ out.length = text.length
        ∧ ∀ (i : Nat) (c d : Int), text[i]? = some c → out[i]? = some d →
            ((range_low ≤ d ∧ d ≤ range_high) ↔ (range_low ≤ c ∧ c ≤ range_high)))
    ∧ (∃ printed out : List Int,
        vigenere_encrypt range_low range_high (key ++ [0]) (text ++ [0]) b2
          = some (printed, out ++ [0])
        ∧ out.length = text.length
        ∧ ∀ (i : Nat) (c d : Int), text[i]? = some c → out[i]? = some d →
            ((range_low ≤ d ∧ d ≤ range_high) ↔ (range_low ≤ c ∧ c ≤ range_high))) := by
  have hr1 : range_low < range_high := hr
  refine ⟨⟨_, caesar_encrypt_shift range_low range_high caesar_key text b1 hlow hhigh hr1 h0
      hb1, by simp, fun i c d hc hd => ?_⟩,
    ⟨_, _, vigenere_encrypt_eq range_low range_high key text b2 hlow hhigh hr1 hne hk0 h0
      hb2, poly_scan_length range_low range_high key text 0,
      fun i c d hc hd =>
        poly_scan_getElem_mem_iff range_low range_high key hr1 text 0 i c d hc hd⟩⟩
  rw [List.getElem?_map, hc, Option.map_some', Option.some.injEq] at hd
  rw [← hd]
  exact shift_char_mem_iff range_low range_high _ c hr1

/-- C17, at `'A'..'Z'`, Caesar key `3`, Vigenere key `"KEY"` and the text `"Hello, World"`. -/
theorem range_closure_witness :
    (∃ out : List Int,
        caesar_encrypt 65 90 3 (str "Hello, World" ++ [0]) (List.replicate 13 0)
          = some (out ++ [0])
        ∧ out.length = (str "Hello, World").length
        ∧ ∀ (i : Nat) (c d : Int), (str "Hello, World")[i]? = some c → out[i]? = some d →
            ((65 ≤ d ∧ d ≤ 90) ↔ (65 ≤ c ∧ c ≤ 90)))
    ∧ (∃ printed out : List Int,
        vigenere_encrypt 65 90 (str "KEY" ++ [0]) (str "Hello, World" ++ [0])
          (List.replicate 13 0) = some (printed, out ++ [0])
        ∧ out.length = (str "Hello, World").length
        ∧ ∀ (i : Nat) (c d : Int), (str "Hello, World")[i]? = some c → out[i]? = some d →
            ((65 ≤ d ∧ d ≤ 90) ↔ (65 ≤ c ∧ c ≤ 90))) :=
  range_closure 65 90 3 (str "KEY") (str "Hello, World") (List.replicate 13 0)
    (List.replicate 13 0) (by decide) (by decide) (by decide) (by decide) (by decide)
    (by decide) (by decide) (by decide)

/-- C18, as stated, fails.  Over the range `0..127`, which holds the terminator, the key `63`
sends `"A"` to the terminator; the second call reads an empty string and leaves an empty
string, while the key `63 + 1` sends `"A"` to `"\x01"`. -/
theorem caesar_composition_fails :
    (caesar_encrypt 0 127 63 (str "A" ++ [0]) [0, 0]).bind
        (fun cipher => caesar_encrypt 0 127 1 cipher [0, 0]) = some [0, 0]
      ∧ caesar_encrypt 0 127 (63 + 1) (str "A" ++ [0]) [0, 0] = some [1, 0]
      ∧ (caesar_encrypt 0 127 63 (str "A" ++ [0]) [0, 0]).bind
        (fun cipher => caesar_encrypt 0 127 1 cipher [0, 0])
          ≠ caesar_encrypt 0 127 (63 + 1) (str "A" ++ [0]) [0, 0] := by
  decide

/-- C18, amended.  For a range of characters with `range_high > range_low` that does not hold
the terminator `0`, any keys `k1` and `k2` and any text, `caesar_encrypt` with `k2` on what
`caesar_encrypt` with `k1` left in its buffer leaves what `caesar_encrypt` with `k1 + k2`
leaves for the text; and for any range with `range_high > range_low`, a key that is a multiple
of the range size leaves the text itself. -/
theorem caesar_composition (range_low range_high k1 k2 n : Int) (text b1 b2 b3 : List Int)
    (hlow : -128 ≤ range_low) (hhigh : range_high ≤ 127) (hr : range_high > range_low)
    (h0 : 0 ∉ text) (hb1 : b1.length = text.length + 1) (hb2 : b2.length = text.length + 1)
    (hb3 : b3.length = text.length + 1) :
    (¬ (range_low ≤ 0 ∧ 0 ≤ range_high) →
      ∃ out : List Int,
        (caesar_encrypt range_low range_high k1 (text ++ [0]) b1).bind
            (fun cipher => caesar_encrypt range_low range_high k2 cipher b2) = some out
        ∧ caesar_encrypt range_low range_high (k1 + k2) (text ++ [0]) b2 = some out)
    ∧ caesar_encrypt range_low range_high (n * (range_high - range_low + 1)) (text ++ [0]) b3
        = some (text ++ [0]) := by
  have hr1 : range_low < range_high := hr
  constructor
  · intro hnul
    have h0c : 0 ∉ text.map (shift_char range_low range_high
        (k1 % (range_high - range_low + 1))) := by
      intro h
      obtain ⟨c, hc, e⟩ := List.mem_map.1 h
      exact shift_char_ne_zero range_low range_high _ c hr1 hnul (fun hz => h0 (hz ▸ hc)) e
    refine ⟨_, ?_, caesar_encrypt_shift range_low range_high (k1 + k2) text b2 hlow hhigh hr1
      h0 hb2⟩
    rw [caesar_encrypt_shift range_low range_high k1 text b1 hlow hhigh hr1 h0 hb1]
    simp only [Option.some_bind]
    rw [caesar_encrypt_shift range_low range_high k2 _ b2 hlow hhigh hr1 h0c
      (by simpa using hb2), List.map_map]
    congr 2
    apply List.map_congr_left
    intro c _
    simp only [Function.comp]
    rw [shift_char_add range_low range_high _ _ c hr1]
    apply shift_char_congr
    rw [← Int.add_emod, Int.emod_emod]
  · rw [caesar_encrypt_shift range_low range_high _ text b3 hlow hhigh hr1 h0 hb3]
    congr 2
    conv_rhs => rw [← List.map_id text]
    apply List.map_congr_left
    intro c _
    rw [Int.mul_emod_left]
    exact shift_char_zero range_low range_high c

/-- C18, amended, at `'A'..'Z'`, keys `20` and `-45`, the multiple `3 * 26` and the text
`"HELLO WORLD"`. -/
theorem caesar_composition_witness :
    (¬ ((65 : Int) ≤ 0 ∧ (0 : Int) ≤ 90) →
      ∃ out : List Int,
        (caesar_encrypt 65 90 20 (str "HELLO WORLD" ++ [0]) (List.replicate 12 0)).bind
            (fun cipher => caesar_encrypt 65 90 (-45) cipher (List.replicate 12 0))
          = some out
        ∧ caesar_encrypt 65 90 (20 + -45) (str "HELLO WORLD" ++ [0]) (List.replicate 12 0)
          = some out)
    ∧ caesar_encrypt 65 90 (3 * (90 - 65 + 1)) (str "HELLO WORLD" ++ [0])
        (List.replicate 12 0) = some (str "HELLO WORLD" ++ [0]) :=
  caesar_composition 65 90 20 (-45) 3 (str "HELLO WORLD") (List.replicate 12 0)
    (List.replicate 12 0) (List.replicate 12 0) (by decide) (by decide) (by decide)
    (by decide) (by decide) (by decide) (by decide)

/-- C19. For a range of characters with `range_high > range_low`, a one-character key `k`
(a character other than the terminator) and any text, `vigenere_encrypt` with the key `k`
and `caesar_encrypt` with the key `k - range_low` both succeed and leave the same buffer. -/
theorem vigenere_single_key (range_low range_high k : Int) (text cipher_text : List Int)
    (hlow : -128 ≤ range_low) (hhigh : range_high ≤ 127) (hr : range_high > range_low)
    (hk : k ≠ 0) (h0 : 0 ∉ text) (hlen : cipher_text.length = text.length + 1) :
    ∃ out : List Int,
      (vigenere_encrypt range_low range_high ([k] ++ [0]) (text ++ [0]) cipher_text).map
          Prod.snd = some out
      ∧ caesar_encrypt range_low range_high (k - range_low) (text ++ [0]) cipher_text
          = some out := by
  have hr1 : range_low < range_high := hr
  have hk0 : (0 : Int) ∉ [k] := by
    intro h
    exact hk (List.mem_singleton.1 h).symm
  refine ⟨_, ?_, caesar_encrypt_shift range_low range_high (k - range_low) text cipher_text
    hlow hhigh hr1 h0 hlen⟩
  rw [vigenere_encrypt_eq range_low range_high [k] text cipher_text hlow hhigh hr1
    (by simp) hk0 h0 hlen, Option.map_some', poly_scan_single]
  show some (List.map _ text ++ [0]) = _
  congr 2
  apply List.map_congr_left
  intro c _
  exact shift_char_congr range_low range_high _ _ c (Int.emod_emod _ _).symm

/-- C19, at `'A'..'Z'`, the key `"D"` and the text `"HELLO WORLD"`. -/
theorem vigenere_single_key_witness :
    ∃ out : List Int,
      (vigenere_encrypt 65 90 ([68] ++ [0]) (str "HELLO WORLD" ++ [0])
          (List.replicate 12 0)).map Prod.snd = some out
      ∧ caesar_encrypt 65 90 (68 - 65) (str "HELLO WORLD" ++ [0]) (List.replicate 12 0)
          = some out :=
  vigenere_single_key 65 90 68 (str "HELLO WORLD") (List.replicate 12 0) (by decide)
    (by decide) (by decide) (by decide) (by decide) (by decide)

/-- C20. For a range of characters with `range_high > range_low`, a non-empty key with all
characters in range and any text, `vigenere_encrypt` succeeds, what it leaves in the buffer
is what its iterations leave with the cursors recorded by `vigenere_cursors`, there is one
iteration for each character of the text, and at every iteration `key_index < key_len`, so
that `key[key_index]` is a character `k` of the key, and the shift `k - range_low` lies in
`[0, range_high - range_low]`, hence in `[range_low - range_high, range_high - range_low]`. -/
theorem vigenere_cursor_bounds (range_low range_high : Int) (key text cipher_text : List Int)
    (hlow : -128 ≤ range_low) (hhigh : range_high ≤ 127) (hr : range_high > range_low)
    (hne : key ≠ []) (hkey : ∀ k ∈ key, range_low ≤ k ∧ k ≤ range_high) (hk0 : 0 ∉ key)
    (h0 : 0 ∉ text) (hlen : cipher_text.length = text.length + 1) :
    strlen (key ++ [0]) = some key.length
    ∧ (vigenere_encrypt range_low range_high (key ++ [0]) (text ++ [0]) cipher_text).map
        Prod.snd
        = some ((vigenere_cursors range_low range_high key.length 0 (text ++ [0])).map
            (vigenere_cell range_low range_high key) ++ [0])
    ∧ (vigenere_cursors range_low range_high key.length 0 (text ++ [0])).length = text.length
    ∧ ∀ e ∈ vigenere_cursors range_low range_high key.length 0 (text ++ [0]),
        e.1 < key.length
        ∧ ∃ k ∈ key, (key ++ [0])[e.1]? = some k
            ∧ 0 ≤ k - range_low ∧ k - range_low ≤ range_high - range_low
            ∧ range_low - range_high ≤ k - range_low := by
  have hr1 : range_low < range_high := hr
  have hpos : 0 < key.length := List.length_pos.2 hne
  refine ⟨strlen_terminated key [] hk0, ?_,
    vigenere_cursors_length range_low range_high key.length text 0 h0, fun e he => ?_⟩
  · rw [vigenere_encrypt_eq range_low range_high key text cipher_text hlow hhigh hr1 hne hk0
      h0 hlen, Option.map_some',
      poly_scan_eq_cursors range_low range_high key hlow hhigh hr1 text 0 h0]
  · have hlt := vigenere_cursors_lt range_low range_high key.length (text ++ [0]) 0 hpos e he
    have hmem : key[e.1] ∈ key := List.getElem_mem hlt
    have hin := hkey _ hmem
    refine ⟨hlt, key[e.1], hmem, ?_, ?_, ?_, ?_⟩
    · rw [List.getElem?_append_left hlt, List.getElem?_eq_getElem hlt]
    · omega
    · omega
    · omega

/-- C20, at `'A'..'Z'`, the key `"KEY"` and the text `"HELLO, WORLD"`. -/
theorem vigenere_cursor_bounds_witness :
    strlen (str "KEY" ++ [0]) = some (str "KEY").length
    ∧ (vigenere_encrypt 65 90 (str "KEY" ++ [0]) (str "HELLO, WORLD" ++ [0])
        (List.replicate 13 0)).map Prod.snd
        = some ((vigenere_cursors 65 90 (str "KEY").length 0
            (str "HELLO, WORLD" ++ [0])).map (vigenere_cell 65 90 (str "KEY")) ++ [0])
    ∧ (vigenere_cursors 65 90 (str "KEY").length 0 (str "HELLO, WORLD" ++ [0])).length
        = (str "HELLO, WORLD").length
    ∧ ∀ e ∈ vigenere_cursors 65 90 (str "KEY").length 0 (str "HELLO, WORLD" ++ [0]),
        e.1 < (str "KEY").length
        ∧ ∃ k ∈ str "KEY", (str "KEY" ++ [0])[e.1]? = some k
            ∧ 0 ≤ k - 65 ∧ k - 65 ≤ 90 - 65 ∧ 65 - 90 ≤ k - 65 :=
  vigenere_cursor_bounds 65 90 (str "KEY") (str "HELLO, WORLD") (List.replicate 13 0)
    (by decide) (by decide) (by decide) (by decide) (by decide) (by decide) (by decide)
    (by decide)

end Cypher
namespace Cypher

/-! ## Claims on the command line -/

/-- C11, at the failing inputs `./exe caesar-encrypt "" HELLO` and
`./exe caesar-encrypt " 5" HELLO`: neither key text is an optional sign followed by decimal
digits, yet `strtol` leaves `endPtr` at a terminator for both, and `cli` returns `0` after
encrypting with the keys `0` and `5`.  The sibling check on a Vigenere key rejects the empty
key. -/
theorem cli_caesar_accepts_empty_key :
    cli 4 [str "./exe" ++ [0], str "caesar-encrypt" ++ [0], str "" ++ [0],
        str "HELLO" ++ [0]] { malloc_ok := true, heap := fun _ => 0, vla := fun _ => 0 }
      = some { status := 0, stdout := str "HELLO\n", stderr := [] }
    ∧ cli 4 [str "./exe" ++ [0], str "caesar-encrypt" ++ [0], str " 5" ++ [0],
        str "HELLO" ++ [0]] { malloc_ok := true, heap := fun _ => 0, vla := fun _ => 0 }
      = some { status := 0, stdout := str "MJQQT\n", stderr := [] }
    ∧ cli 4 [str "./exe" ++ [0], str "vigenere-encrypt" ++ [0], str "" ++ [0],
        str "HELLO" ++ [0]] { malloc_ok := true, heap := fun _ => 0, vla := fun _ => 0 }
      = some { status := 1, stdout := [], stderr := str "Error: Key is empty string.\n" } := by
  decide

/-- C13. On every path where `cli` returns `1`, standard output is empty and standard error
holds exactly one of the messages of its `fprintf(stderr, ...)` calls; on every path where it
returns `0`, standard error is empty; and it returns nothing else. -/
theorem cli_failure_atomic (argc : Int) (argv : List (List Int)) (env : Env) (out : Outcome)
    (h : cli argc argv env = some out) :
    (out.status = 1 → out.stdout = [] ∧ out.stderr ∈ cli_error_messages argv)
      ∧ (out.status = 0 → out.stderr = [])
      ∧ (out.status = 0 ∨ out.status = 1) := by
  rcases cli_outcome argc argv env out h with ⟨h1, h2, h3⟩ | ⟨h1, h2⟩
  · exact ⟨fun _ => ⟨h2, h3⟩, fun h0 => by rw [h1] at h0; exact absurd h0 (by decide),
      Or.inr h1⟩
  · exact ⟨fun h0 => by rw [h1] at h0; exact absurd h0 (by decide), fun _ => h2, Or.inl h1⟩

/-- C13, at `./exe vigenere-decrypt KeY HELLO`, rejected for the character `e` of the
key. -/
theorem cli_failure_atomic_witness :
    ((1 : Int) = 1 → ([] : List Int) = []
        ∧ str "Error: Key contains invalid characters for range 'A' - 'Z'.\n"
          ∈ cli_error_messages [str "./exe" ++ [0], str "vigenere-decrypt" ++ [0],
              str "KeY" ++ [0], str "HELLO" ++ [0]])
      ∧ ((1 : Int) = 0
          → str "Error: Key contains invalid characters for range 'A' - 'Z'.\n" = [])
      ∧ ((1 : Int) = 0 ∨ (1 : Int) = 1) :=
  cli_failure_atomic 4 [str "./exe" ++ [0], str "vigenere-decrypt" ++ [0], str "KeY" ++ [0],
      str "HELLO" ++ [0]] { malloc_ok := true, heap := fun _ => 0, vla := fun _ => 0 }
    { status := 1, stdout := [],
      stderr := str "Error: Key contains invalid characters for range 'A' - 'Z'.\n" }
    (by decide)

end Cypher
namespace Cypher

/-- C12. With a program name in `argv[0]`: `cli` returns `1` whenever `argc != 4`; and on
three operands it returns `1` when the operation is none of the four names, when the
operation is a Vigenere one and the key is empty or has a character outside `'A'..'Z'`, and
when the message is empty; for a Vigenere operation, `malloc` succeeding, it returns `0`
exactly when the key is non-empty, every key character is in `'A'..'Z'` and the message is
non-empty. -/
theorem cli_rejects_invalid (argc : Int) (program operation key message : List Int)
    (rest : List (List Int)) (env : Env) (hop : is_text operation) (hk : 0 ∉ key)
    (hm : 0 ∉ message) :
    (argc ≠ 4 → (cli argc (program :: rest) env).map Outcome.status = some 1)
    ∧ (operation ∉ operations →
        (cli 4 [program, operation ++ [0], key ++ [0], message ++ [0]] env).map
          Outcome.status = some 1)
    ∧ ((operation = str "vigenere-encrypt" ∨ operation = str "vigenere-decrypt") →
        (key = [] ∨ ∃ k ∈ key, k < 65 ∨ k > 90) →
        (cli 4 [program, operation ++ [0], key ++ [0], message ++ [0]] env).map
          Outcome.status = some 1)
    ∧ (message = [] →
        (cli 4 [program, operation ++ [0], key ++ [0], message ++ [0]] env).map
          Outcome.status = some 1)
    ∧ ((operation = str "vigenere-encrypt" ∨ operation = str "vigenere-decrypt") →
        env.malloc_ok = true →
        ((cli 4 [program, operation ++ [0], key ++ [0], message ++ [0]] env).map
            Outcome.status = some 0
          ↔ (key ≠ [] ∧ (∀ k ∈ key, (65 : Int) ≤ k ∧ k ≤ 90) ∧ message ≠ []))) := by
  refine ⟨fun hargc => ?_, fun hno => ?_, fun hv hbad => ?_, fun hmsg => ?_,
    fun hv hmal => ?_⟩
  · simp [cli, hargc, fail]
  · rw [cli_four, cli_run_invalid operation _ _ env hop hno]
    rfl
  · obtain ⟨out, h, h01, hiff⟩ := cli_run_vigenere_status operation key message env hv hk hm
    rw [cli_four, h, Option.map_some', Option.some.injEq]
    rcases h01 with h0 | h1
    · have hgood := hiff.1 h0
      rcases hbad with hb | ⟨k, hkm, hb⟩
      · exact absurd hb hgood.1
      · have := hgood.2.1 k hkm
        omega
    · exact h1
  · rw [cli_four]
    by_cases hmem : operation ∈ operations
    · rcases mem_operations operation hmem with hc | hv
      · obtain ⟨out, h, h1⟩ := cli_run_caesar_status operation key message env hc hk hm
        rw [h, Option.map_some', h1 hmsg]
      · obtain ⟨out, h, h01, hiff⟩ :=
          cli_run_vigenere_status operation key message env hv hk hm
        rw [h, Option.map_some', Option.some.injEq]
        rcases h01 with h0 | h1
        · exact absurd hmsg (hiff.1 h0).2.2.1
        · exact h1
    · rw [cli_run_invalid operation _ _ env hop hmem]
      rfl
  · obtain ⟨out, h, _, hiff⟩ := cli_run_vigenere_status operation key message env hv hk hm
    rw [cli_four, h, Option.map_some', Option.some.injEq, hiff]
    constructor
    · exact fun hg => ⟨hg.1, hg.2.1, hg.2.2.1⟩
    · exact fun hg => ⟨hg.1, hg.2.1, hg.2.2, hmal⟩

/-- C12, at the program `./exe`, `argc = 3`, the operation `vigenere-decrypt`, the key
`"KEY"` and the message `"RIJVS"`. -/
theorem cli_rejects_invalid_witness :
    ((3 : Int) ≠ 4 →
        (cli 3 ((str "./exe" ++ [0]) :: [str "vigenere-decrypt" ++ [0], str "KEY" ++ [0]])
          { malloc_ok := true, heap := fun _ => 0, vla := fun _ => 0 }).map Outcome.status
          = some 1)
    ∧ (str "vigenere-decrypt" ∉ operations →
        (cli 4 [str "./exe" ++ [0], str "vigenere-decrypt" ++ [0], str "KEY" ++ [0],
            str "RIJVS" ++ [0]]
          { malloc_ok := true, heap := fun _ => 0, vla := fun _ => 0 }).map Outcome.status
          = some 1)
    ∧ ((str "vigenere-decrypt" = str "vigenere-encrypt"
          ∨ str "vigenere-decrypt" = str "vigenere-decrypt") →
        (str "KEY" = [] ∨ ∃ k ∈ str "KEY", k < 65 ∨ k > 90) →
        (cli 4 [str "./exe" ++ [0], str "vigenere-decrypt" ++ [0], str "KEY" ++ [0],
            str "RIJVS" ++ [0]]
          { malloc_ok := true, heap := fun _ => 0, vla := fun _ => 0 }).map Outcome.status
          = some 1)
    ∧ (str "RIJVS" = [] →
        (cli 4 [str "./exe" ++ [0], str "vigenere-decrypt" ++ [0], str "KEY" ++ [0],
            str "RIJVS" ++ [0]]
          { malloc_ok := true, heap := fun _ => 0, vla := fun _ => 0 }).map Outcome.status
          = some 1)
    ∧ ((str "vigenere-decrypt" = str "vigenere-encrypt"
          ∨ str "vigenere-decrypt" = str "vigenere-decrypt") →
        true = true →
        ((cli 4 [str "./exe" ++ [0], str "vigenere-decrypt" ++ [0], str "KEY" ++ [0],
            str "RIJVS" ++ [0]]
          { malloc_ok := true, heap := fun _ => 0, vla := fun _ => 0 }).map Outcome.status
            = some 0
          ↔ (str "KEY" ≠ [] ∧ (∀ k ∈ str "KEY", (65 : Int) ≤ k ∧ k ≤ 90)
              ∧ str "RIJVS" ≠ []))) :=
  cli_rejects_invalid 3 (str "./exe" ++ [0]) (str "vigenere-decrypt") (str "KEY")
    (str "RIJVS") [str "vigenere-decrypt" ++ [0], str "KEY" ++ [0]]
    { malloc_ok := true, heap := fun _ => 0, vla := fun _ => 0 }
    (by unfold is_text; decide) (by decide) (by decide)

/-- C16. On a command line with three operands `cli` always returns: no assertion of a
transform fails.  When it returns `0`, which it does exactly on the paths that call a
transform, the call was made with the range `'Z' > 'A'` and, for a Vigenere operation, with
a non-empty key whose characters are all in `'A'..'Z'`; for `vigenere-decrypt`, `invert_key`
then yields a non-empty key whose characters are all in `'A'..'Z'` for the inner call of
`vigenere_encrypt`.  With another operand count it returns `1`, without any call. -/
theorem cli_validates_before_transform (argc : Int)
    (program operation key message : List Int) (rest : List (List Int)) (env : Env)
    (hop : is_text operation) (hk : 0 ∉ key) (hm : 0 ∉ message) :
    (argc ≠ 4 → cli argc (program :: rest) env
        = fail (str "Usage: " ++ c_str program ++ str " <operation> <key> <message>\n"))
    ∧ ∃ out : Outcome,
        cli 4 [program, operation ++ [0], key ++ [0], message ++ [0]] env = some out
        ∧ (out.status = 0 →
            (90 : Int) > 65
            ∧ ((operation = str "vigenere-encrypt" ∨ operation = str "vigenere-decrypt") →
                key ≠ [] ∧ (∀ k ∈ key, (65 : Int) ≤ k ∧ k ≤ 90)
                ∧ invert_key 65 90 (key ++ [0]) ((List.range (key.length + 1)).map env.vla)
                    key.length = some (inverted 65 90 key ++ [0])
                ∧ inverted 65 90 key ≠ []
                ∧ ∀ k ∈ inverted 65 90 key, (65 : Int) ≤ k ∧ k ≤ 90)) := by
  refine ⟨fun hargc => by simp [cli, hargc], ?_⟩
  rw [cli_four]
  by_cases hmem : operation ∈ operations
  · rcases mem_operations operation hmem with hc | hv
    · obtain ⟨out, h, _⟩ := cli_run_caesar_status operation key message env hc hk hm
      refine ⟨out, h, fun _ => ⟨by decide, fun hv => ?_⟩⟩
      rcases hc with hc | hc <;> rcases hv with hv | hv <;>
        exact absurd (hc.symm.trans hv) (by decide)
    · obtain ⟨out, h, _, hiff⟩ := cli_run_vigenere_status operation key message env hv hk hm
      refine ⟨out, h, fun h0 => ⟨by decide, fun _ => ?_⟩⟩
      obtain ⟨hne, hkey, _, _⟩ := hiff.1 h0
      refine ⟨hne, hkey, invert_key_eq 65 90 key _ (by decide) (by decide) (by decide) hkey
        (by simp), ?_, inverted_mem 65 90 key (by decide)⟩
      intro hnil
      have hl := inverted_length 65 90 key
      rw [hnil] at hl
      exact hne (List.length_eq_zero.1 hl.symm)
  · rw [cli_run_invalid operation _ _ env hop hmem]
    exact ⟨_, rfl, fun h0 => absurd (show (1 : Int) = 0 from h0) (by decide)⟩

/-- C16, at `./exe vigenere-decrypt KEY RIJVS`. -/
theorem cli_validates_before_transform_witness :
    ((4 : Int) ≠ 4 → cli 4 ((str "./exe" ++ [0]) :: [])
        { malloc_ok := true, heap := fun _ => 0, vla := fun _ => 0 }
        = fail (str "Usage: " ++ c_str (str "./exe" ++ [0])
            ++ str " <operation> <key> <message>\n"))
    ∧ ∃ out : Outcome,
        cli 4 [str "./exe" ++ [0], str "vigenere-decrypt" ++ [0], str "KEY" ++ [0],
            str "RIJVS" ++ [0]] { malloc_ok := true, heap := fun _ => 0, vla := fun _ => 0 }
          = some out
        ∧ (out.status = 0 →
            (90 : Int) > 65
            ∧ ((str "vigenere-decrypt" = str "vigenere-encrypt"
                  ∨ str "vigenere-decrypt" = str "vigenere-decrypt") →
                str "KEY" ≠ [] ∧ (∀ k ∈ str "KEY", (65 : Int) ≤ k ∧ k ≤ 90)
                ∧ invert_key 65 90 (str "KEY" ++ [0])
                    ((List.range ((str "KEY").length + 1)).map (fun _ => 0))
                    (str "KEY").length = some (inverted 65 90 (str "KEY") ++ [0])
                ∧ inverted 65 90 (str "KEY") ≠ []
                ∧ ∀ k ∈ inverted 65 90 (str "KEY"), (65 : Int) ≤ k ∧ k ≤ 90)) :=
  cli_validates_before_transform 4 (str "./exe" ++ [0]) (str "vigenere-decrypt") (str "KEY")
    (str "RIJVS") [] { malloc_ok := true, heap := fun _ => 0, vla := fun _ => 0 }
    (by unfold is_text; decide) (by decide) (by decide)

end Cypher
